import Mathlib

set_option maxRecDepth 8000

/-!
Verification development for the doc-QA python services: a shallow embedding of
the text-chunking engine (app/chunkers/utils.py, splitter.py, semantic_splitter.py)
and of the asynchronous task handlers (app/worker/tasks.py, app/models/model.py).

Modelling conventions:
  - a Python `str` is a `List Char` (`PyStr`); `str.isspace`/`str.isalnum` are
    modelled for the ASCII range, which covers every input used in the theorems;
  - Python `float` arithmetic in the quality/language heuristics is modelled by
    exact rational arithmetic (the double-rounding of e.g. `0.1`, `0.2`, `round(x, 2)`
    is noted where it occurs; no theorem input sits near a representation boundary);
  - the optional third-party libraries (langdetect, jieba, fugashi, nltk) are
    modelled as absent, so the code's own fallback branches are the modelled ones;
  - Python loops that are not structurally recursive are given explicit fuel;
    every caller passes fuel that the accompanying lemmas show is sufficient.
-/

namespace DocQA

abbrev PyStr := List Char

/-- A space character, written via its code point. -/
def SP : Char := Char.ofNat 32

/-- Model of `str.isspace` for the ASCII whitespace characters. -/
def pyIsSpace (c : Char) : Bool :=
  c = SP || c = Char.ofNat 9 || c = Char.ofNat 10 || c = Char.ofNat 13 ||
  c = Char.ofNat 11 || c = Char.ofNat 12

/-- Model of `str.isalnum` for the ASCII range. -/
def pyIsAlnum (c : Char) : Bool :=
  (Char.ofNat 48 ≤ c && c ≤ Char.ofNat 57) ||
  (Char.ofNat 65 ≤ c && c ≤ Char.ofNat 90) ||
  (Char.ofNat 97 ≤ c && c ≤ Char.ofNat 122)

/-- Model of `str.lower()` (character-wise, which agrees with Python on the
ASCII strategy names this is applied to). -/
def pyLower (s : String) : String := String.mk (s.data.map Char.toLower)

/-- Model of `str.strip()`. -/
def pyStrip (s : PyStr) : PyStr :=
  ((s.dropWhile pyIsSpace).reverse.dropWhile pyIsSpace).reverse

/-- Python `text[a:b]` for a list of characters (indices already clamped at 0). -/
def sliceStr (text : PyStr) (a b : Nat) : PyStr := (text.drop a).take (b - a)

/-- Step 1 of `normalize_text`: `replace('\r\n', '\n').replace('\r', '\n')`. -/
def replaceCR : PyStr → PyStr
  | [] => []
  | '\r' :: '\n' :: rest => '\n' :: replaceCR rest
  | '\r' :: rest => '\n' :: replaceCR rest
  | c :: rest => c :: replaceCR rest

/-- Step 2 of `normalize_text`: `re.sub(r'\n{3,}', '\n\n', text)` - any run of
three or more newlines becomes exactly two. `seen` counts newlines already kept
in the current run. -/
def collapseNewlinesGo : Nat → PyStr → PyStr
  | _, [] => []
  | seen, '\n' :: rest =>
    if seen ≥ 2 then collapseNewlinesGo seen rest
    else '\n' :: collapseNewlinesGo (seen + 1) rest
  | _, c :: rest => c :: collapseNewlinesGo 0 rest

/-- Step 5 of `normalize_text`: `re.sub(r' {2,}', ' ', text)` - any run of two
or more plain spaces becomes one. -/
def collapseSpacesGo : Nat → PyStr → PyStr
  | _, [] => []
  | seen, c :: rest =>
    if c = SP then
      if seen ≥ 1 then collapseSpacesGo seen rest
      else SP :: collapseSpacesGo 1 rest
    else c :: collapseSpacesGo 0 rest

/-- Step 4 of `normalize_text`: removal of the zero-width characters
u200b, u200c, u200d, u2060, ufeff. -/
def isZeroWidth (c : Char) : Bool :=
  c.toNat = 0x200b || c.toNat = 0x200c || c.toNat = 0x200d ||
  c.toNat = 0x2060 || c.toNat = 0xfeff

/-- Step 6 of `normalize_text`: removal of the control characters
x00-x08, x0b, x0c, x0e-x1f, x7f. -/
def isCtl (c : Char) : Bool :=
  c.toNat ≤ 0x08 || c.toNat = 0x0b || c.toNat = 0x0c ||
  (0x0e ≤ c.toNat && c.toNat ≤ 0x1f) || c.toNat = 0x7f

/-- Model of `normalize_text` from app/chunkers/utils.py.  The NFC normalization
step is the identity on the ASCII inputs considered here. -/
def normalize_text (s : PyStr) : PyStr :=
  if s = [] then []
  else
    pyStrip (((collapseSpacesGo 0
      (((collapseNewlinesGo 0 (replaceCR s))).filter (fun c => !isZeroWidth c)))).filter
        (fun c => !isCtl c))

/-- CJK Unified Ideographs range used by `detect_language`. -/
def isChineseChar (c : Char) : Bool := 0x4e00 ≤ c.toNat && c.toNat ≤ 0x9fff

/-- Kana ranges used by `detect_language`. -/
def isJapaneseChar (c : Char) : Bool :=
  (0x3040 ≤ c.toNat && c.toNat ≤ 0x30ff) || (0x31f0 ≤ c.toNat && c.toNat ≤ 0x31ff)

/-- Hangul ranges used by `detect_language`. -/
def isKoreanChar (c : Char) : Bool :=
  (0x3130 ≤ c.toNat && c.toNat ≤ 0x318f) || (0xac00 ≤ c.toNat && c.toNat ≤ 0xd7af)

/-- Model of `detect_language` (heuristic branch; langdetect modelled absent).
The float comparison `count / total > 0.1` is modelled exactly as
`10 * count > total`. -/
def detect_language (s : PyStr) : String :=
  if s.length < 10 then "en"
  else
    let total := s.length
    if 10 * (s.filter isChineseChar).length > total then "zh"
    else if 10 * (s.filter isJapaneseChar).length > total then "ja"
    else if 10 * (s.filter isKoreanChar).length > total then "ko"
    else "en"

/-- Model of `str.split()` (split on whitespace runs, dropping empty pieces);
`cur` is the reversed word being accumulated. -/
def pySplitWsGo (cur : PyStr) : PyStr → List PyStr
  | [] => if cur = [] then [] else [cur.reverse]
  | c :: rest =>
    if pyIsSpace c then
      if cur = [] then pySplitWsGo [] rest else cur.reverse :: pySplitWsGo [] rest
    else pySplitWsGo (c :: cur) rest

def pySplitWs (s : PyStr) : List PyStr := pySplitWsGo [] s

/-- Model of `count_tokens` (jieba/fugashi modelled absent, lang auto-detected).
`int(char_count * 0.7)` is modelled as `7 * n / 10` (floored). -/
def count_tokens (s : PyStr) : Nat :=
  if s = [] then 0
  else
    let lang := detect_language s
    if lang = "zh" || lang = "ja" || lang = "ko" then max 1 (7 * s.length / 10)
    else (pySplitWs s).length

def SENTENCE_ENDINGS : List Char :=
  ['.', '!', '?', '。', '！', '？', '…', '︒', '︓', '︔', '︕', '︖', '︙']

/-- Opening markers of PAIRED_MARKERS (the unmatchable 3-character key of the
source dict is omitted: a single character never equals it). Kept in source
order so that positions in the two lists correspond. -/
def PAIRED_OPENERS : List Char :=
  [Char.ofNat 34, Char.ofNat 39, '「', '『', Char.ofNat 40, Char.ofNat 91,
   Char.ofNat 123, '（', '【', '《', Char.ofNat 60]

/-- Closing markers of PAIRED_MARKERS, aligned with `PAIRED_OPENERS`. -/
def PAIRED_CLOSERS : List Char :=
  [Char.ofNat 34, Char.ofNat 39, '」', '』', Char.ofNat 41, Char.ofNat 93,
   Char.ofNat 125, '）', '】', '》', Char.ofNat 62]

/-- The opener the source's `list(keys)[list(values).index(c)]` pairs with a
closing character (first matching value wins, as `.index` does). -/
def openerFor (c : Char) : Option Char :=
  match PAIRED_CLOSERS.indexOf? c with
  | none => none
  | some i => PAIRED_OPENERS.get? i

/-- The quote-tracking scan of `is_sentence_boundary`: openers are pushed
(openers are tested first, so a straight double quote always pushes), a closer
pops only when the top of the stack is its paired opener. The stack head is the
most recently opened marker. -/
def openQuotesScan : List Char → PyStr → List Char
  | stack, [] => stack
  | stack, c :: rest =>
    if PAIRED_OPENERS.contains c then openQuotesScan (c :: stack) rest
    else if PAIRED_CLOSERS.contains c then
      match stack with
      | [] => openQuotesScan [] rest
      | top :: s' =>
        if openerFor c = some top then openQuotesScan s' rest
        else openQuotesScan stack rest
    else openQuotesScan stack rest

/-- Model of `is_sentence_boundary` from app/chunkers/utils.py. -/
def is_sentence_boundary (text : PyStr) (pos : Nat) : Bool :=
  if pos = 0 || pos ≥ text.length then false
  else if SENTENCE_ENDINGS.contains (text.getD pos SP) ||
          SENTENCE_ENDINGS.contains (text.getD (pos - 1) SP) then
    if openQuotesScan [] (text.take pos) ≠ [] then false
    else if pos + 1 < text.length && pyIsAlnum (text.getD (pos + 1) SP) then false
    else true
  else false

/-- Sentence-ending characters of the per-language regex in
`custom_sentence_split`. -/
def endingsFor (lang : String) : List Char :=
  if lang = "zh" then ['。', '！', '？', '…']
  else if lang = "ja" then ['。', '！', '？', '…', '︒', '︓', '︔', '︕', '︖']
  else if lang = "ko" then ['.', '!', '?', '…']
  else ['.', '!', '?', '\n']

/-- One `re.findall(r'(E+)([^E]*)', text)` match list: after the unmatched
prefix is skipped, each match is a maximal run of ending characters followed by
the maximal run of non-ending characters.  Fuel: each step consumes at least
one character. -/
def findPartsAux (ends : List Char) : Nat → PyStr → List (PyStr × PyStr)
  | 0, _ => []
  | _, [] => []
  | fuel + 1, s =>
    let e := s.takeWhile (fun c => ends.contains c)
    let rest := s.dropWhile (fun c => ends.contains c)
    let f := rest.takeWhile (fun c => !ends.contains c)
    let rest2 := rest.dropWhile (fun c => !ends.contains c)
    (e, f) :: findPartsAux ends fuel rest2

/-- All matches of the sentence pattern; the text before the first ending run
is not part of any match (as with `re.findall`). -/
def findParts (ends : List Char) (s : PyStr) : List (PyStr × PyStr) :=
  let s' := s.dropWhile (fun c => !ends.contains c)
  findPartsAux ends s'.length s'

/-- The sentence-assembly loop of `custom_sentence_split`: `cur` is the
`current` variable (text carried over from the previous match). -/
def assembleSentences : List (PyStr × PyStr) → PyStr → List PyStr
  | [], cur => if cur ≠ [] then [cur] else []
  | (e, f) :: rest, cur =>
    (if cur ≠ [] then cur ++ e else e) :: assembleSentences rest f

/-- Model of `custom_sentence_split`. When the pattern finds no match in a
non-empty text, the source returns `[text]` unstripped. -/
def custom_sentence_split (text : PyStr) (lang : String) : List PyStr :=
  let ends := endingsFor lang
  let parts := findParts ends text
  if parts = [] && text ≠ [] then [text]
  else ((assembleSentences parts []).map pyStrip).filter (fun s => s ≠ [])

/-- Model of `split_sentences` with an explicit language (as all modelled call
sites pass one); nltk is modelled absent so the custom splitter is used. -/
def split_sentences (text : PyStr) (lang : String) : List PyStr :=
  if text = [] then [] else custom_sentence_split (normalize_text text) lang

/-- An exact fraction (numerator over positive denominator), modelling the
Python float arithmetic of the quality heuristic by exact rational arithmetic.
Every construction site keeps the denominator positive; fractions are kept
unreduced, and all comparisons cross-multiply, so the denotation is exact. -/
structure Frac where
  num : Int
  den : Int
deriving DecidableEq, Repr

def Frac.ofNat (n : Nat) : Frac := { num := n, den := 1 }

def Frac.add (x y : Frac) : Frac :=
  { num := x.num * y.den + y.num * x.den, den := x.den * y.den }

def Frac.mul (x y : Frac) : Frac := { num := x.num * y.num, den := x.den * y.den }

/-- Division, used only with positive arguments here. -/
def Frac.div (x y : Frac) : Frac := { num := x.num * y.den, den := x.den * y.num }

/-- Exact order comparison (denominators positive at all call sites). -/
def Frac.blt (x y : Frac) : Bool := x.num * y.den < y.num * x.den

def Frac.ble (x y : Frac) : Bool := x.num * y.den ≤ y.num * x.den

/-- Python `min` via exact comparison. -/
def Frac.fmin (x y : Frac) : Frac := if Frac.ble x y then x else y

/-- Python `max` via exact comparison. -/
def Frac.fmax (x y : Frac) : Frac := if Frac.ble y x then x else y

/-- Model of `estimate_chunk_quality` over exact fractions. -/
def estimate_chunk_quality (chunk : PyStr) : Frac :=
  if chunk = [] then Frac.ofNat 0
  else
    let n := chunk.length
    if n < 10 then Frac.ofNat 0
    else
      let meaningful := (chunk.filter (fun c => pyIsAlnum c || pyIsSpace c)).length
      let lines := (chunk.filter (fun c => c = '\n')).length + 1
      let one := Frac.ofNat 1
      let q :=
        Frac.add
          (Frac.add
            (Frac.mul { num := 1, den := 2 } (Frac.div (Frac.ofNat meaningful) (Frac.ofNat n)))
            (Frac.mul { num := 3, den := 10 }
              (Frac.fmin one (Frac.div (Frac.div (Frac.ofNat n) (Frac.ofNat lines)) (Frac.ofNat 40)))))
          (Frac.mul { num := 1, den := 5 } (Frac.fmin one (Frac.div (Frac.ofNat lines) (Frac.ofNat 3))))
      Frac.fmin one (Frac.fmax (Frac.ofNat 0) q)

/-- Floor of a fraction with positive denominator. -/
def Frac.floor (x : Frac) : Int := Int.fdiv x.num x.den

/-- Round-half-to-even at two decimal places, the rounding mode of Python
`round(x, 2)`, over exact fractions. -/
def roundF2 (x : Frac) : Frac :=
  let y := Frac.mul x (Frac.ofNat 100)
  let f := Frac.floor y
  let r := y.num - f * y.den
  let rounded :=
    if 2 * r < y.den then f
    else if y.den < 2 * r then f + 1
    else if f % 2 = 0 then f else f + 1
  { num := rounded, den := 100 }

/-! Model of app/chunkers/splitter.py. -/

/-- The `length_function` configuration value ("character" or "token"). -/
inductive LengthFn
  | character
  | token
deriving DecidableEq, Repr

/-- Model of `SplitConfig` (the unused `filter_metadata` field is omitted). -/
structure SplitConfig where
  chunk_size : Nat := 1000
  chunk_overlap : Nat := 200
  min_chunk_size : Nat := 50
  min_chunk_length_to_embed : Nat := 10
  keep_separator : Bool := false
  strip_whitespace : Bool := true
  length_function : LengthFn := .character
deriving DecidableEq, Repr

/-- The metadata dict `_create_chunk_metadata` builds.  The source stores an
open dict; the keys it writes are fixed, so the dict is modelled as a record,
with `base` holding the caller-supplied base metadata (e.g. `document_id`). -/
structure ChunkMeta where
  base : List (String × String) := []
  chunk_index : Nat
  chunk_size : Nat
  chunk_type : String := "text"
  quality : Frac
deriving DecidableEq, Repr

/-- Model of the `Chunk` dataclass.  `metadata` is always created through
`_create_chunk_metadata` at every modelled construction site, so it is stored
directly rather than behind an option. -/
structure Chunk where
  text : PyStr
  index : Nat
  metadata : ChunkMeta
deriving DecidableEq, Repr

/-- Chunk size by the configured length function. -/
def measureSize (cfg : SplitConfig) (s : PyStr) : Nat :=
  match cfg.length_function with
  | .character => s.length
  | .token => count_tokens s

/-- Model of `TextSplitter._create_chunk_metadata`. -/
def create_chunk_metadata (cfg : SplitConfig) (text : PyStr) (index : Nat)
    (base : List (String × String)) : ChunkMeta :=
  { base := base
    chunk_index := index
    chunk_size := measureSize cfg text
    chunk_type := "text"
    quality := roundF2 (estimate_chunk_quality text) }

/-- Paragraph splitting: `re.split(r'\n\s*\n', text)`.  On a newline followed
by a whitespace run containing another newline, the greedy match extends to the
last newline of that run; otherwise the newline is ordinary text.  `cur` is the
reversed piece being accumulated; fuel is at least the text length plus one. -/
def splitParagraphsAux : Nat → PyStr → PyStr → List PyStr
  | 0, cur, s => [cur.reverse ++ s]
  | _ + 1, cur, [] => [cur.reverse]
  | fuel + 1, cur, c :: rest =>
    if c = '\n' then
      let run := rest.takeWhile pyIsSpace
      let after := rest.drop run.length
      if run.contains '\n' then
        let k := run.length - 1 - (run.reverse.indexOf '\n')
        cur.reverse :: splitParagraphsAux fuel [] (run.drop (k + 1) ++ after)
      else c :: cur |> fun cur' => splitParagraphsAux fuel cur' rest
    else splitParagraphsAux fuel (c :: cur) rest

def splitParagraphs (s : PyStr) : List PyStr := splitParagraphsAux (s.length + 1) [] s

/-- Turn a list of texts into chunks with consecutive indices starting at `i`
(the `for i, para in enumerate(...)` / `chunk_index += 1` pattern). -/
def enumChunks (cfg : SplitConfig) (base : List (String × String)) :
    Nat → List PyStr → List Chunk
  | _, [] => []
  | i, p :: rest =>
    { text := p, index := i, metadata := create_chunk_metadata cfg p i base } ::
      enumChunks cfg base (i + 1) rest

/-- Model of `TextSplitter._split_by_paragraph`. -/
def splitByParagraph (cfg : SplitConfig) (text : PyStr)
    (base : List (String × String)) : List Chunk :=
  let paragraphs := ((splitParagraphs text).map pyStrip).filter (fun p => p ≠ [])
  enumChunks cfg base 0 paragraphs

/-- Python `" ".join(ss)`. -/
def joinSpace : List PyStr → PyStr
  | [] => []
  | s :: rest => s ++ (rest.map (fun t => SP :: t)).flatten

/-- The inner `while end > i and not text[end].isspace(): end -= 1` of the
character branch of `_split_by_length_helper`; `cnt` is fuel (at least `e - i`). -/
def shrinkToSpace (text : PyStr) (i : Nat) : Nat → Nat → Nat
  | e, 0 => e
  | e, cnt + 1 =>
    if e > i && !pyIsSpace (text.getD e SP) then shrinkToSpace text i (e - 1) cnt
    else e

/-- Character branch of `_split_by_length_helper`: slices of `max_size`
characters starting at multiples of `max_size`, each shortened to the nearest
word boundary (reverting to the raw boundary if none), then stripped; empty
pieces are dropped.  The range step stays `max_size` even when a slice was
shortened.  Fuel counts remaining range elements. -/
def lengthHelperCharAux (text : PyStr) (max_size : Nat) : Nat → Nat → List PyStr
  | _, 0 => []
  | i, fuel + 1 =>
    if i ≥ text.length then []
    else
      let e0 := i + max_size
      let e :=
        if e0 < text.length then
          let e' := shrinkToSpace text i e0 (e0 - i)
          if e' = i then e0 else e'
        else e0
      let piece := pyStrip (sliceStr text i e)
      (if piece ≠ [] then [piece] else []) ++ lengthHelperCharAux text max_size (i + max_size) fuel

/-- Token branch of `_split_by_length_helper`: greedy packing of
whitespace-delimited words by token count. -/
def lengthHelperTokenGo (max_size : Nat) : List PyStr → List PyStr → Nat → List PyStr
  | [], cur, _ => if cur ≠ [] then [joinSpace cur.reverse] else []
  | w :: ws, cur, size =>
    let wsize := count_tokens w
    if size + wsize ≤ max_size || cur = [] then
      lengthHelperTokenGo max_size ws (w :: cur) (size + wsize)
    else joinSpace cur.reverse :: lengthHelperTokenGo max_size ws [w] wsize

/-- Model of `TextSplitter._split_by_length_helper`.  With `max_size = 0` the
source raises (`range` with step 0); that case is modelled as an empty result
and excluded by hypothesis wherever it matters. -/
def split_by_length_helper (cfg : SplitConfig) (text : PyStr) (max_size : Nat) : List PyStr :=
  if max_size = 0 then []
  else
    match cfg.length_function with
    | .token => lengthHelperTokenGo max_size (pySplitWs text) [] 0
    | .character => lengthHelperCharAux text max_size 0 (text.length + 1)

/-- The overlap-collection loop of `_split_by_sentence`: walk the closed
chunk's sentences in reverse, keep collecting while the combined size stays
within `chunk_overlap`, stop at the first sentence that does not fit.  Returns
the collected sentences (in original order) and their combined size. -/
def collectOverlap (cfg : SplitConfig) : List PyStr → Nat → List PyStr → List PyStr × Nat
  | [], size, acc => (acc, size)
  | s :: rest, size, acc =>
    let ssz := measureSize cfg s
    if size + ssz ≤ cfg.chunk_overlap then collectOverlap cfg rest (size + ssz) (s :: acc)
    else (acc, size)

/-- State of the sentence-packing loop of `_split_by_sentence`. -/
structure SentAcc where
  chunks : List Chunk
  cur : List PyStr
  curSize : Nat
  idx : Nat
deriving Repr

/-- The per-sentence loop body of `_split_by_sentence`. -/
def splitBySentenceGo (cfg : SplitConfig) (base : List (String × String)) :
    List PyStr → SentAcc → List Chunk
  | [], acc =>
    if acc.cur ≠ [] then
      acc.chunks ++ [{ text := joinSpace acc.cur, index := acc.idx,
                       metadata := create_chunk_metadata cfg (joinSpace acc.cur) acc.idx base }]
    else acc.chunks
  | s :: rest, acc =>
    if pyStrip s = [] then splitBySentenceGo cfg base rest acc
    else
      let ssize := measureSize cfg s
      if ssize > cfg.chunk_size then
        let flushed :=
          if acc.cur ≠ [] then
            { chunks := acc.chunks ++
                [{ text := joinSpace acc.cur, index := acc.idx,
                   metadata := create_chunk_metadata cfg (joinSpace acc.cur) acc.idx base }],
              cur := [], curSize := 0, idx := acc.idx + 1 : SentAcc }
          else acc
        let pieces := (split_by_length_helper cfg s cfg.chunk_size).filter
          (fun wc => wc.length ≥ cfg.min_chunk_size)
        let afterHelper :=
          pieces.foldl (fun (a : SentAcc) wc =>
            { chunks := a.chunks ++
                [{ text := wc, index := a.idx,
                   metadata := create_chunk_metadata cfg wc a.idx base }],
              cur := [], curSize := 0, idx := a.idx + 1 }) flushed
        splitBySentenceGo cfg base rest afterHelper
      else if acc.curSize + ssize ≤ cfg.chunk_size ∨ acc.cur = [] then
        splitBySentenceGo cfg base rest
          { acc with cur := acc.cur ++ [s], curSize := acc.curSize + ssize }
      else
        let closed := acc.chunks ++
          [{ text := joinSpace acc.cur, index := acc.idx,
             metadata := create_chunk_metadata cfg (joinSpace acc.cur) acc.idx base }]
        if cfg.chunk_overlap > 0 ∧ acc.cur.length > 1 then
          let ov := collectOverlap cfg acc.cur.reverse 0 []
          let newCur := ov.1 ++ [s]
          splitBySentenceGo cfg base rest
            { chunks := closed, cur := newCur,
              curSize := (newCur.map (measureSize cfg)).sum, idx := acc.idx + 1 }
        else
          splitBySentenceGo cfg base rest
            { chunks := closed, cur := [s], curSize := ssize, idx := acc.idx + 1 }

/-- Model of `TextSplitter._split_by_sentence`. -/
def splitBySentence (cfg : SplitConfig) (text : PyStr) (lang : String)
    (base : List (String × String)) : List Chunk :=
  let sentences := split_sentences text lang
  if sentences = [] then []
  else splitBySentenceGo cfg base sentences { chunks := [], cur := [], curSize := 0, idx := 0 }

/-- First index with a property in `[i, i + cnt)`, scanning forward. -/
def scanFwd (p : Nat → Bool) : Nat → Nat → Option Nat
  | _, 0 => none
  | i, cnt + 1 => if p i then some i else scanFwd p (i + 1) cnt

/-- First index with a property in `(i - cnt, i]`, scanning backward from `i`. -/
def scanBwd (p : Nat → Bool) : Nat → Nat → Option Nat
  | _, 0 => none
  | i, cnt + 1 => if p i then some i else scanBwd p (i - 1) cnt

/-- Model of `find_best_split_point` (window 100): first a paragraph break,
then a sentence boundary, then a newline, then a space, each searched forward
from the target and then backward down to (exclusive) `target - 100`; the raw
target if nothing is found. -/
def find_best_split_point (text : PyStr) (target : Nat) : Nat :=
  let n := text.length
  if target = 0 then 0
  else if target ≥ n then n
  else
    let startW := target - 100
    let endW := min n (target + 100)
    let fwd := endW - target
    let bwd := target - startW
    let paraP := fun i => decide (i + 1 < n) && (text.getD i SP = '\n') && (text.getD (i + 1) SP = '\n')
    let sentP := fun i => is_sentence_boundary text i
    let nlP := fun i => text.getD i SP = '\n'
    let spP := fun i => pyIsSpace (text.getD i SP)
    match scanFwd paraP target fwd with
    | some i => i + 2
    | none =>
      match scanBwd paraP target bwd with
      | some i => i + 2
      | none =>
        match scanFwd sentP target fwd with
        | some i => i + 1
        | none =>
          match scanBwd sentP target bwd with
          | some i => i + 1
          | none =>
            match scanFwd nlP target fwd with
            | some i => i + 1
            | none =>
              match scanBwd nlP target bwd with
              | some i => i + 1
              | none =>
                match scanFwd spP target fwd with
                | some i => i + 1
                | none =>
                  match scanBwd spP target bwd with
                  | some i => i + 1
                  | none => target

/-- End position of the `_split_by_length` window starting at `start`: the raw
end, adjusted (when not at the text's end) to the best split point, capped at
`start + chunk_size`. -/
def lengthWindowEnd (cfg : SplitConfig) (text : PyStr) (start : Nat) : Nat :=
  let n := text.length
  let end0 := min (start + cfg.chunk_size) n
  if end0 < n then
    let best := find_best_split_point text end0
    if best > start + cfg.chunk_size then start + cfg.chunk_size else best
  else end0

/-- Start of the following `_split_by_length` window: overlap is applied only
when the window did not reach the text's end and the overlap is smaller than
the window. -/
def lengthNextStart (cfg : SplitConfig) (text : PyStr) (start : Nat) : Nat :=
  let e := lengthWindowEnd cfg text start
  if e < text.length && cfg.chunk_overlap < e - start then e - cfg.chunk_overlap else e

/-- The raw window sequence of the `_split_by_length` while loop: each window
is `(start, end)` before the minimum-size filter.  Fuel is at least
`text.length + 1` wherever the loop terminates in Python. -/
def splitByLengthAux (cfg : SplitConfig) (text : PyStr) : Nat → Nat → List (Nat × Nat)
  | 0, _ => []
  | fuel + 1, start =>
    if start ≥ text.length then []
    else
      (start, lengthWindowEnd cfg text start) ::
        splitByLengthAux cfg text fuel (lengthNextStart cfg text start)

/-- The raw windows of `_split_by_length` including its two early-return
branches (empty text, text no longer than the chunk size). -/
def splitByLengthWindows (cfg : SplitConfig) (text : PyStr) : List (Nat × Nat) :=
  if text = [] then []
  else if text.length ≤ cfg.chunk_size then [(0, text.length)]
  else splitByLengthAux cfg text (text.length + 1) 0

/-- Model of `TextSplitter._split_by_length`: windows whose slice meets
`min_chunk_size` become chunks, indexed densely in emission order. -/
def splitByLength (cfg : SplitConfig) (text : PyStr)
    (base : List (String × String)) : List Chunk :=
  if text = [] then []
  else if text.length ≤ cfg.chunk_size then
    [{ text := text, index := 0, metadata := create_chunk_metadata cfg text 0 base }]
  else
    let ws := splitByLengthAux cfg text (text.length + 1) 0
    let pieces := (ws.map (fun se => sliceStr text se.1 se.2)).filter
      (fun c => c.length ≥ cfg.min_chunk_size)
    enumChunks cfg base 0 pieces

/-- Re-index a chunk list densely from `i`, re-stamping the `chunk_index`
metadata key (the final loop of `_post_process_chunks` and of
`_merge_similar_chunks`). -/
def stampFrom : Nat → List Chunk → List Chunk
  | _, [] => []
  | i, c :: rest =>
    { c with index := i, metadata := { c.metadata with chunk_index := i } } ::
      stampFrom (i + 1) rest

/-- Model of `TextSplitter._post_process_chunks`: drop chunks shorter than
`min_chunk_length_to_embed` or with quality below 0.2, strip the survivors'
text when configured, and re-index densely (re-stamping `chunk_index`). -/
def postProcessChunks (cfg : SplitConfig) (chunks : List Chunk) : List Chunk :=
  let kept := chunks.filter fun c =>
    decide (c.text.length ≥ cfg.min_chunk_length_to_embed) &&
      !(Frac.blt c.metadata.quality { num := 1, den := 5 })
  let stripped :=
    if cfg.strip_whitespace then kept.map (fun c => { c with text := pyStrip c.text }) else kept
  stampFrom 0 stripped

/-- Model of `TextSplitter.split`: normalize, detect language, dispatch on the
lower-cased strategy name (unknown strategies and "semantic" fall back to
paragraph splitting), then post-process. -/
def TextSplitterSplit (cfg : SplitConfig) (text : PyStr) (split_type : String)
    (base : List (String × String)) : List Chunk :=
  if text = [] then []
  else
    let t := normalize_text text
    let lang := detect_language t
    let st := pyLower split_type
    let raw :=
      if st = "paragraph" then splitByParagraph cfg t base
      else if st = "sentence" then splitBySentence cfg t lang base
      else if st = "length" then splitByLength cfg t base
      else if st = "semantic" then splitByParagraph cfg t base
      else splitByParagraph cfg t base
    postProcessChunks cfg raw

/-- Model of the module-level convenience function `split_text` (the dict
conversion at the end is kept as the chunk record itself). -/
def split_text (text : PyStr) (chunk_size : Nat) (chunk_overlap : Nat)
    (split_type : String) (base : List (String × String)) : List Chunk :=
  TextSplitterSplit
    { chunk_size := chunk_size, chunk_overlap := chunk_overlap } text split_type base

/-! Model of app/models/model.py and app/worker/tasks.py.  Timestamps are
abstract instants (`Nat`); the Redis round trips are modelled by an
association-list store; the best-effort callback has no effect on task state
and is omitted; store writes are assumed to succeed (infrastructure failures
are out of the claims' scope).  Each external capability invoked inside a
handler's `try` block is a parameter of `Except` type: `.error` models the
capability raising, which the source converts to a failed status. -/

inductive TaskType
  | document_parse
  | text_chunk
  | vectorize
  | process_complete
deriving DecidableEq, Repr

inductive TaskStatus
  | pending
  | processing
  | completed
  | failed
deriving DecidableEq, Repr

structure DocumentParsePayload where
  file_path : String
  file_name : String
  file_type : String
  metadata : List (String × String) := []
deriving DecidableEq, Repr

/-- Result of the parse stage.  The parser-factory calls and the
`count_words`/`count_chars` bookkeeping live outside the claims, so the parse
capability is summarized by the record it produces. -/
structure DocumentParseResult where
  content : PyStr
  title : String := ""
  meta : List (String × String) := []
  error : String := ""
  pages : Nat := 0
  words : Nat := 0
  chars : Nat := 0
deriving DecidableEq, Repr

structure ChunkInfo where
  text : PyStr
  index : Nat
deriving DecidableEq, Repr

structure TextChunkPayload where
  document_id : String
  content : PyStr
  chunk_size : Nat
  overlap : Nat
  split_type : String
deriving DecidableEq, Repr

structure TextChunkResult where
  document_id : String
  chunks : List ChunkInfo := []
  chunk_count : Nat := 0
  error : String := ""
deriving DecidableEq, Repr

structure VectorizePayload where
  document_id : String
  chunks : List ChunkInfo
  model : String
deriving DecidableEq, Repr

structure VectorInfo where
  chunk_index : Nat
  vector : List ℚ
deriving DecidableEq, Repr

structure VectorizeResult where
  document_id : String
  vectors : List VectorInfo := []
  vector_count : Nat := 0
  model : String := ""
  dimension : Nat := 0
  error : String := ""
deriving DecidableEq, Repr

structure ProcessCompletePayload where
  document_id : String
  file_path : String
  file_name : String
  file_type : String
  chunk_size : Nat
  overlap : Nat
  split_type : String
  model : String
  metadata : List (String × String) := []
deriving DecidableEq, Repr

structure ProcessCompleteResult where
  document_id : String
  chunk_count : Nat := 0
  vector_count : Nat := 0
  dimension : Nat := 0
  parse_status : String := ""
  chunk_status : String := ""
  vector_status : String := ""
  error : String := ""
  vectors : List VectorInfo := []
deriving DecidableEq, Repr

/-- A task's payload dict, typed per kind; `malformed` models a dict that does
not unpack into the handler's dataclass (the `**task.payload` `TypeError` /
`ValueError` path). -/
inductive TaskPayload
  | parse (p : DocumentParsePayload)
  | chunk (p : TextChunkPayload)
  | vectorize (p : VectorizePayload)
  | processComplete (p : ProcessCompletePayload)
  | malformed
deriving DecidableEq, Repr

/-- A task's result dict, typed per kind. -/
inductive TaskResult
  | parse (r : DocumentParseResult)
  | chunk (r : TextChunkResult)
  | vectorize (r : VectorizeResult)
  | processComplete (r : ProcessCompleteResult)
deriving DecidableEq, Repr

/-- Model of the `Task` dataclass.  `result = none` models the empty default
dict (`update_task_status` only overwrites it when a handler passes a result). -/
structure Task where
  id : String
  type : TaskType
  document_id : String
  status : TaskStatus
  payload : TaskPayload
  result : Option TaskResult := none
  error : String := ""
  created_at : Nat := 0
  updated_at : Nat := 0
  started_at : Option Nat := none
  completed_at : Option Nat := none
  attempts : Nat := 0
  max_retries : Nat := 3
deriving DecidableEq, Repr

/-- Model of `update_task_status`: status and `updated_at` always change,
`started_at` is set on the first transition to processing, `completed_at` on
every transition to a terminal status, `result` only when one is passed, and
`error` only when non-empty.  The Redis write always succeeds in the model and
the callback is effect-free. -/
def update_task_status (t : Task) (status : TaskStatus) (result : Option TaskResult)
    (error : String) (now : Nat) : Task :=
  let t1 := { t with status := status, updated_at := now }
  let t2 :=
    if status = TaskStatus.processing && t1.started_at = none then
      { t1 with started_at := some now }
    else t1
  let t3 :=
    if status = TaskStatus.completed || status = TaskStatus.failed then
      { t2 with completed_at := some now }
    else t2
  let t4 :=
    match result with
    | some r => { t3 with result := some r }
    | none => t3
  if error ≠ "" then { t4 with error := error } else t4

/-- The task store: task records keyed by task id. -/
abbrev TaskStore := List (String × Task)

def storeGet (s : TaskStore) (id : String) : Option Task :=
  match s.find? (fun kv => kv.1 = id) with
  | some kv => some kv.2
  | none => none

def storeSet (s : TaskStore) (id : String) (t : Task) : TaskStore :=
  if s.any (fun kv => kv.1 = id) then
    s.map (fun kv => if kv.1 = id then (id, t) else kv)
  else s ++ [(id, t)]

/-- One handler invocation: the sequence of task snapshots written to the
store (in write order), the store afterwards, and the boolean the celery task
returns. -/
structure HandlerRun where
  writes : List Task
  store : TaskStore
  ok : Bool
deriving Repr

/-- Finish a handler: write the terminal snapshot after the processing one. -/
def finishRun (store1 : TaskStore) (task_id : String) (t1 t2 : Task) (ok : Bool) : HandlerRun :=
  { writes := [t1, t2], store := storeSet store1 task_id t2, ok := ok }

/-- Model of the celery task `parse_document`.  `parseCap` is the outcome of
the parser-factory calls inside the `try` block. -/
def parse_document (store : TaskStore) (task_id : String)
    (parseCap : Except String DocumentParseResult) (now : Nat) : HandlerRun :=
  match storeGet store task_id with
  | none => { writes := [], store := store, ok := false }
  | some task =>
    let t1 := update_task_status task TaskStatus.processing none "" now
    let store1 := storeSet store task_id t1
    match t1.payload with
    | TaskPayload.parse _ =>
      match parseCap with
      | Except.ok r =>
        finishRun store1 task_id t1
          (update_task_status t1 TaskStatus.completed (some (TaskResult.parse r)) "" now) true
      | Except.error e =>
        finishRun store1 task_id t1
          (update_task_status t1 TaskStatus.failed none ("Document parse failed: " ++ e) now) false
    | _ =>
      finishRun store1 task_id t1
        (update_task_status t1 TaskStatus.failed none
          "Document parse failed: payload error" now) false

/-- Python `x or default` for a numeric field (0 is falsy). -/
def orNat (n dflt : Nat) : Nat := if n = 0 then dflt else n

/-- Python `x or default` for a string field ("" is falsy). -/
def orStr (s dflt : String) : String := if s = "" then dflt else s

/-- Model of the celery task `chunk_text`; the chunking stage is the in-repo
`split_text`, which the model calls directly. -/
def chunk_text (store : TaskStore) (task_id : String) (now : Nat) : HandlerRun :=
  match storeGet store task_id with
  | none => { writes := [], store := store, ok := false }
  | some task =>
    let t1 := update_task_status task TaskStatus.processing none "" now
    let store1 := storeSet store task_id t1
    match t1.payload with
    | TaskPayload.chunk p =>
      let chunks_data := split_text p.content (orNat p.chunk_size 1000) (orNat p.overlap 200)
        (orStr p.split_type "paragraph") [("document_id", p.document_id)]
      let chunks := chunks_data.map (fun c => ChunkInfo.mk c.text c.index)
      let r : TextChunkResult :=
        { document_id := p.document_id, chunks := chunks, chunk_count := chunks.length }
      finishRun store1 task_id t1
        (update_task_status t1 TaskStatus.completed (some (TaskResult.chunk r)) "" now) true
    | _ =>
      finishRun store1 task_id t1
        (update_task_status t1 TaskStatus.failed none
          "Text chunking failed: payload error" now) false

/-- Model of the celery task `vectorize_text`.  `embedCap` is the outcome of
`create_embedder(...).embed_batch(texts)`; if the embedder returns more vectors
than there are chunks, the source's `payload.chunks[i]` lookup raises, which
the handler converts to a failed status. -/
def vectorize_text (store : TaskStore) (task_id : String)
    (embedCap : Except String (List (List ℚ))) (now : Nat) : HandlerRun :=
  match storeGet store task_id with
  | none => { writes := [], store := store, ok := false }
  | some task =>
    let t1 := update_task_status task TaskStatus.processing none "" now
    let store1 := storeSet store task_id t1
    match t1.payload with
    | TaskPayload.vectorize p =>
      match embedCap with
      | Except.ok vectors_data =>
        if vectors_data.length ≤ p.chunks.length then
          let dimension := match vectors_data with | [] => 0 | v :: _ => v.length
          let vectors := vectors_data.enum.map
            (fun iv => VectorInfo.mk ((p.chunks.getD iv.1 (ChunkInfo.mk [] 0)).index) iv.2)
          let r : VectorizeResult :=
            { document_id := p.document_id, vectors := vectors,
              vector_count := vectors.length, model := orStr p.model "default",
              dimension := dimension }
          finishRun store1 task_id t1
            (update_task_status t1 TaskStatus.completed (some (TaskResult.vectorize r)) "" now) true
        else
          finishRun store1 task_id t1
            (update_task_status t1 TaskStatus.failed none
              "Text vectorization failed: chunk index out of range" now) false
      | Except.error e =>
        finishRun store1 task_id t1
          (update_task_status t1 TaskStatus.failed none
            ("Text vectorization failed: " ++ e) now) false
    | _ =>
      finishRun store1 task_id t1
        (update_task_status t1 TaskStatus.failed none
          "Text vectorization failed: payload error" now) false

/-- Model of the celery task `process_document`.  `parseCap` and `embedCap`
are the outcomes of the parse and embed capabilities; `chunkRun` is the
outcome of the chunk stage (instantiated with the in-repo `split_text` by
`process_document_run`; an `.error` models that stage raising).  A parse or
chunk failure writes a failed terminal status with the partial result attached
and the stage error; an embed failure is non-fatal: the task completes with
`vector_status = "failed"`. -/
def process_document (store : TaskStore) (task_id : String)
    (parseCap : Except String DocumentParseResult)
    (chunkRun : ProcessCompletePayload → PyStr → Except String (List Chunk))
    (embedCap : Except String (List (List ℚ))) (now : Nat) : HandlerRun :=
  match storeGet store task_id with
  | none => { writes := [], store := store, ok := false }
  | some task =>
    let t1 := update_task_status task TaskStatus.processing none "" now
    let store1 := storeSet store task_id t1
    match t1.payload with
    | TaskPayload.processComplete p =>
      let r0 : ProcessCompleteResult :=
        { document_id := p.document_id, parse_status := "pending",
          chunk_status := "pending", vector_status := "pending" }
      match parseCap with
      | Except.error e =>
        let r1 := { r0 with parse_status := "failed", error := "Parse failed: " ++ e }
        finishRun store1 task_id t1
          (update_task_status t1 TaskStatus.failed
            (some (TaskResult.processComplete r1)) r1.error now) false
      | Except.ok pr =>
        let r1 := { r0 with parse_status := "completed" }
        match chunkRun p pr.content with
        | Except.error e =>
          let r2 := { r1 with chunk_status := "failed", error := "Chunking failed: " ++ e }
          finishRun store1 task_id t1
            (update_task_status t1 TaskStatus.failed
              (some (TaskResult.processComplete r2)) r2.error now) false
        | Except.ok chunks =>
          let r2 := { r1 with chunk_status := "completed", chunk_count := chunks.length }
          match embedCap with
          | Except.error e =>
            let r3 := { r2 with vector_status := "failed", error := "Vectorization failed: " ++ e }
            finishRun store1 task_id t1
              (update_task_status t1 TaskStatus.completed
                (some (TaskResult.processComplete r3)) "" now) true
          | Except.ok vector_data =>
            if vector_data.length ≤ chunks.length then
              let dim := match vector_data with | [] => 0 | v :: _ => v.length
              let vectors := vector_data.enum.map
                (fun iv => VectorInfo.mk ((chunks.getD iv.1
                  (Chunk.mk [] 0 (ChunkMeta.mk [] 0 0 "" (Frac.ofNat 0)))).index) iv.2)
              let r3 := { r2 with vector_status := "completed", vector_count := vectors.length, dimension := dim, vectors := vectors }
              finishRun store1 task_id t1
                (update_task_status t1 TaskStatus.completed
                  (some (TaskResult.processComplete r3)) "" now) true
            else
              let r3 := { r2 with vector_status := "failed", error := "Vectorization failed: chunk index out of range" }
              finishRun store1 task_id t1
                (update_task_status t1 TaskStatus.completed
                  (some (TaskResult.processComplete r3)) "" now) true
    | _ =>
      finishRun store1 task_id t1
        (update_task_status t1 TaskStatus.failed none
          "Document processing failed: payload error" now) false

/-- The chunk stage of `process_document` as the source runs it: the in-repo
`split_text` on the parsed content, which does not raise for a well-typed
payload. -/
def chunkStageReal (p : ProcessCompletePayload) (content : PyStr) :
    Except String (List Chunk) :=
  Except.ok (split_text content p.chunk_size p.overlap p.split_type
    [("document_id", p.document_id)])

/-- The full-pipeline handler with its chunk stage instantiated by the in-repo
chunker. -/
def process_document_run (store : TaskStore) (task_id : String)
    (parseCap : Except String DocumentParseResult)
    (embedCap : Except String (List (List ℚ))) (now : Nat) : HandlerRun :=
  process_document store task_id parseCap chunkStageReal embedCap now

/-! Model of app/chunkers/semantic_splitter.py.  Embedding coordinates live in
a linear ordered field `K`, and `np.linalg.norm`'s square root is a function
parameter `sqrtK`; the faithful numeric instantiation is `ℝ` with `Real.sqrt`
(used for the cosine-similarity claim), while the structural lemmas hold for
every instantiation.  `np.dot` is modelled on the zipped coordinates (the two
vectors have equal length whenever the embedding capability is well-formed).
An embedding function returns `Except`: `.error` models it raising. -/

/-- The default chunk value used for out-of-range positional reads. -/
def dfltChunk : Chunk :=
  { text := [], index := 0,
    metadata := { chunk_index := 0, chunk_size := 0, quality := Frac.ofNat 0 } }

section Semantic

variable {K : Type} [LinearOrderedField K]

/-- Model of `np.dot` on list vectors. -/
def npDot (a b : List K) : K := ((a.zip b).map (fun p => p.1 * p.2)).sum

/-- Model of `SemanticSplitter._compute_similarity`: cosine similarity with a
zero result for a zero-norm vector, clamped into `[0, 1]`. -/
def compute_similarity (sqrtK : K → K) (v1 v2 : List K) : K :=
  let dot := npDot v1 v2
  let n1 := sqrtK (npDot v1 v1)
  let n2 := sqrtK (npDot v2 v2)
  if n1 = 0 ∨ n2 = 0 then 0
  else max 0 (min 1 (dot / (n1 * n2)))

/-- Extra configuration of `SemanticSplitConfig` on top of the base
`SplitConfig` (batch size and ttl are unused by the modelled paths). -/
structure SemanticSplitConfig (K : Type) where
  base : SplitConfig := {}
  similarity_threshold : K
  min_sentence_length : Nat := 5
  buffer_size : Nat := 5
  use_cached_embeddings : Bool := true

/-- An embedding capability: a batched call that may raise. -/
abbrev EmbedFn (K : Type) := List PyStr → Except String (List (List K))

/-- The session cache of embeddings keyed by exact text. -/
abbrev EmbedCache (K : Type) := List (PyStr × List K)

def cacheLookup (cache : EmbedCache K) (t : PyStr) : Option (List K) :=
  match cache.find? (fun kv => kv.1 = t) with
  | some kv => some kv.2
  | none => none

/-- Dict-style upsert (later writes win). -/
def cacheInsert (cache : EmbedCache K) (t : PyStr) (v : List K) : EmbedCache K :=
  if cache.any (fun kv => kv.1 = t) then
    cache.map (fun kv => if kv.1 = t then (t, v) else kv)
  else cache ++ [(t, v)]

def cacheInsertMany (cache : EmbedCache K) : List (PyStr × List K) → EmbedCache K
  | [] => cache
  | (t, v) :: rest => cacheInsertMany (cacheInsert cache t v) rest

/-- Fill the embeddings list: cache hits from the cache snapshot, misses
positionally from the freshly computed batch. -/
def assembleEmb (cache : EmbedCache K) : List PyStr → List (List K) → List (List K)
  | [], _ => []
  | t :: ts, comp =>
    match cacheLookup cache t with
    | some v => v :: assembleEmb cache ts comp
    | none =>
      match comp with
      | v :: comp' => v :: assembleEmb cache ts comp'
      | [] => [] :: assembleEmb cache ts []

/-- Model of `SemanticSplitter._get_embeddings_batch`, threading the cache
state.  A batch whose result count differs from its input count would make the
source raise at the latest when the stale `None` entries are consumed, modelled
as an error outcome. -/
def get_embeddings_batch (f : EmbedFn K) (useCache : Bool) (cache : EmbedCache K)
    (texts : List PyStr) : Except String (List (List K) × EmbedCache K) :=
  if useCache then
    let missing := texts.filter (fun t => cacheLookup cache t = none)
    if missing = [] then Except.ok (assembleEmb cache texts [], cache)
    else
      match f missing with
      | Except.error e => Except.error e
      | Except.ok computed =>
        if computed.length = missing.length then
          Except.ok (assembleEmb cache texts computed, cacheInsertMany cache (missing.zip computed))
        else Except.error "embedding batch arity mismatch"
  else
    match f texts with
    | Except.error e => Except.error e
    | Except.ok computed => Except.ok (computed, cache)

/-- The per-sentence loop of `_split_by_semantic_similarity`.  `prev` is the
embedding of the previous sentence in iteration order (present exactly when
the source's `i > 0` guard holds). -/
def splitBySemanticGo (sqrtK : K → K) (scfg : SemanticSplitConfig K)
    (base : List (String × String)) :
    List (PyStr × List K) → Option (List K) → SentAcc → List Chunk
  | [], _, acc =>
    if acc.cur ≠ [] then
      acc.chunks ++ [{ text := joinSpace acc.cur, index := acc.idx,
                       metadata := create_chunk_metadata scfg.base (joinSpace acc.cur) acc.idx base }]
    else acc.chunks
  | (s, emb) :: rest, prev, acc =>
    let cfg := scfg.base
    let ssize := measureSize cfg s
    if acc.cur = [] then
      splitBySemanticGo sqrtK scfg base rest (some emb)
        { acc with cur := [s], curSize := ssize }
    else if acc.curSize + ssize > cfg.chunk_size then
      let closed := acc.chunks ++
        [{ text := joinSpace acc.cur, index := acc.idx,
           metadata := create_chunk_metadata cfg (joinSpace acc.cur) acc.idx base }]
      splitBySemanticGo sqrtK scfg base rest (some emb)
        { chunks := closed, cur := [s], curSize := ssize, idx := acc.idx + 1 }
    else
      let doSplit :=
        match prev with
        | some pemb =>
          decide (compute_similarity sqrtK emb pemb < scfg.similarity_threshold) &&
          decide (acc.cur.length ≥ scfg.buffer_size) &&
          decide (acc.curSize ≥ cfg.min_chunk_size)
        | none => false
      if doSplit then
        let closed := acc.chunks ++
          [{ text := joinSpace acc.cur, index := acc.idx,
             metadata := create_chunk_metadata cfg (joinSpace acc.cur) acc.idx base }]
        splitBySemanticGo sqrtK scfg base rest (some emb)
          { chunks := closed, cur := [s], curSize := ssize, idx := acc.idx + 1 }
      else
        splitBySemanticGo sqrtK scfg base rest (some emb)
          { acc with cur := acc.cur ++ [s], curSize := acc.curSize + ssize }

/-- Model of `SemanticSplitter._split_by_semantic_similarity`: no embedding
function or a raising batch call falls back to paragraph splitting; a text
with at most one sentence becomes a single chunk. -/
def splitBySemanticSimilarity (sqrtK : K → K) (scfg : SemanticSplitConfig K)
    (embedF : Option (EmbedFn K)) (cache : EmbedCache K) (text : PyStr) (lang : String)
    (base : List (String × String)) : List Chunk :=
  match embedF with
  | none => splitByParagraph scfg.base text base
  | some f =>
    let sentences := split_sentences text lang
    if sentences.length ≤ 1 then
      if text ≠ [] then
        [{ text := text, index := 0, metadata := create_chunk_metadata scfg.base text 0 base }]
      else []
    else
      let kept := sentences.filter (fun s => (pyStrip s).length ≥ scfg.min_sentence_length)
      match get_embeddings_batch f scfg.use_cached_embeddings cache kept with
      | Except.error _ => splitByParagraph scfg.base text base
      | Except.ok (embs, _) =>
        splitBySemanticGo sqrtK scfg base (kept.zip embs) none
          { chunks := [], cur := [], curSize := 0, idx := 0 }

/-- Model of `SemanticSplitter.split`: empty text gives no chunks, a
non-semantic strategy delegates to the base splitter, and the semantic path is
preprocessing, semantic splitting and post-processing. -/
def SemanticSplitterSplit (sqrtK : K → K) (scfg : SemanticSplitConfig K)
    (embedF : Option (EmbedFn K)) (cache : EmbedCache K) (text : PyStr)
    (split_type : String) (base : List (String × String)) : List Chunk :=
  if text = [] then []
  else if pyLower split_type ≠ "semantic" then
    TextSplitterSplit scfg.base text split_type base
  else
    let t := normalize_text text
    let lang := detect_language t
    postProcessChunks scfg.base (splitBySemanticSimilarity sqrtK scfg embedF cache t lang base)

/-- The initial pairwise similarity matrix of `_merge_similar_chunks`
(`np.zeros` diagonal, symmetric cosine entries elsewhere). -/
def buildSimMatrix (sqrtK : K → K) (embs : List (List K)) : List (List K) :=
  (List.range embs.length).map (fun i =>
    (List.range embs.length).map (fun j =>
      if i = j then 0
      else compute_similarity sqrtK (embs.getD i []) (embs.getD j [])))

/-- The argmax double loop of `_merge_similar_chunks` over a candidate pair
list, carrying `(max_similarity, merge_i, merge_j)`. -/
def argmaxGo (m : List (List K)) : List (Nat × Nat) → K × Nat × Nat → K × Nat × Nat
  | [], best => best
  | p :: ps, best =>
    let v := (m.getD p.1 []).getD p.2 0
    if v > best.1 then argmaxGo m ps (v, p.1, p.2) else argmaxGo m ps best

/-- The row-major upper-triangle pair order of the source's nested loops. -/
def upperPairs (n : Nat) : List (Nat × Nat) :=
  (List.range n).flatMap (fun i => (List.range' (i + 1) (n - (i + 1))).map (fun j => (i, j)))

/-- Selected merge pair: the fold of the argmax loop starting from
`(-1, 0, 0)`. -/
def argmaxPair (m : List (List K)) (n : Nat) : Nat × Nat :=
  (argmaxGo m (upperPairs n) (-1, 0, 0)).2

/-- Python `[c for k, c in enumerate(l) if k != i and k != j]`. -/
def removeTwoGo (i j : Nat) : Nat → List α → List α
  | _, [] => []
  | k, x :: xs =>
    (if k = i || k = j then [] else [x]) ++ removeTwoGo i j (k + 1) xs

def removeTwo (l : List α) (i j : Nat) : List α := removeTwoGo i j 0 l

/-- The rebuilt similarity matrix after a merge: surviving entries are copied
through `rem` (the remaining original indices in order), the merged chunk's row
and column are the freshly computed similarities, the diagonal stays zero. -/
def rebuildMatrix (old : List (List K)) (rem : List Nat) (simsMerged : List K) :
    List (List K) :=
  (List.range (rem.length + 1)).map (fun a =>
    (List.range (rem.length + 1)).map (fun b =>
      if a = rem.length then (if b = rem.length then 0 else simsMerged.getD b 0)
      else if b = rem.length then simsMerged.getD a 0
      else if a = b then 0
      else (old.getD (rem.getD a 0) []).getD (rem.getD b 0) 0))

/-- Similarities of each surviving chunk against the merged chunk, one cached
batch call per chunk, threading the cache. -/
def simsVsMergedGo (sqrtK : K → K) (f : EmbedFn K) (useCache : Bool)
    (mergedEmb : List K) : List Chunk → EmbedCache K → Except String (List K × EmbedCache K)
  | [], cache => Except.ok ([], cache)
  | c :: cs, cache =>
    match get_embeddings_batch f useCache cache [c.text] with
    | Except.error e => Except.error e
    | Except.ok (vs, cache') =>
      match simsVsMergedGo sqrtK f useCache mergedEmb cs cache' with
      | Except.error e => Except.error e
      | Except.ok (rest, cache'') =>
        Except.ok (compute_similarity sqrtK mergedEmb (vs.getD 0 []) :: rest, cache'')

/-- Outcome of the merge while loop: `merged` flows into the final
re-numbering, `fallback` is the except branch's `chunks[:target_count]`, which
skips it. -/
inductive MergeOut
  | merged (chunks : List Chunk)
  | fallback (chunks : List Chunk)
deriving Repr

/-- The merge while loop of `_merge_similar_chunks`: pick the most similar
pair, concatenate their texts with a space keeping the lower chunk's index and
metadata, append the merged chunk at the end, and rebuild the similarity
matrix; any raising embed call inside the loop aborts with the current list
truncated to the target.  Fuel at least the chunk count is sufficient. -/
def mergeLoop (sqrtK : K → K) (f : EmbedFn K) (useCache : Bool) (target : Nat) :
    Nat → List Chunk → List (List K) → EmbedCache K → MergeOut
  | 0, chunks, _, _ => MergeOut.merged chunks
  | fuel + 1, chunks, m, cache =>
    if chunks.length ≤ target then MergeOut.merged chunks
    else
      let mi := (argmaxPair m chunks.length).1
      let mj := (argmaxPair m chunks.length).2
      let lower := chunks.getD mi dfltChunk
      let upper := chunks.getD mj dfltChunk
      let mergedText := lower.text ++ SP :: upper.text
      let merged : Chunk := { text := mergedText, index := lower.index, metadata := lower.metadata }
      let survivors := removeTwo chunks mi mj
      let newChunks := survivors ++ [merged]
      match f [mergedText] with
      | Except.error _ => MergeOut.fallback (chunks.take target)
      | Except.ok mvs =>
        match mvs with
        | [] => MergeOut.fallback (chunks.take target)
        | mergedEmb :: _ =>
          match simsVsMergedGo sqrtK f useCache mergedEmb survivors cache with
          | Except.error _ => MergeOut.fallback (chunks.take target)
          | Except.ok (sims, cache') =>
            let rem := (List.range chunks.length).filter (fun k => k ≠ mi && k ≠ mj)
            mergeLoop sqrtK f useCache target fuel newChunks (rebuildMatrix m rem sims) cache'

/-- Model of `SemanticSplitter._merge_similar_chunks`. -/
def merge_similar_chunks (sqrtK : K → K) (scfg : SemanticSplitConfig K) (f : EmbedFn K)
    (cache : EmbedCache K) (chunks : List Chunk) (target : Nat) : List Chunk :=
  if chunks = [] || chunks.length ≤ target then chunks
  else
    match get_embeddings_batch f scfg.use_cached_embeddings cache (chunks.map (fun c => c.text)) with
    | Except.error _ => chunks.take target
    | Except.ok (embs, cache') =>
      match mergeLoop sqrtK f scfg.use_cached_embeddings target chunks.length chunks
        (buildSimMatrix sqrtK embs) cache' with
      | MergeOut.merged out => stampFrom 0 out
      | MergeOut.fallback out => out

/-- An absent embedding function behaves on call like a raising one (calling
`None` raises and every raise lands in an except branch). -/
def noneEmbedFn : EmbedFn K := fun _ => Except.error "embedding function is None"

/-- Model of `SemanticSplitter.get_optimal_splits`. -/
def get_optimal_splits (sqrtK : K → K) (scfg : SemanticSplitConfig K)
    (embedF : Option (EmbedFn K)) (cache : EmbedCache K) (text : PyStr)
    (max_chunks : Nat) : List Chunk :=
  let semantic_chunks := SemanticSplitterSplit sqrtK scfg embedF cache text "semantic" []
  if semantic_chunks.length ≤ max_chunks then semantic_chunks
  else
    merge_similar_chunks sqrtK scfg (embedF.getD noneEmbedFn) cache semantic_chunks max_chunks

end Semantic

/-- The texts of a chunk group, space-joined as the merge loop builds them. -/
def joinSpaceTexts (g : List Chunk) : PyStr := joinSpace (g.map (fun c => c.text))

/-- A merged chunk against the group of original chunks it absorbed: the group
is non-empty, the chunk's text is the space-join of the group's texts, and its
metadata and index are exactly those of the group's first (lower) member. -/
def ChunkGroupOk (c : Chunk) (g : List Chunk) : Prop :=
  g ≠ [] ∧ c.text = joinSpaceTexts g ∧
  ∃ h, g.head? = some h ∧ c.metadata = h.metadata ∧ c.index = h.index

/-- Pointwise group decomposition of a chunk list. -/
def RelGroups (out : List Chunk) (gs : List (List Chunk)) : Prop :=
  List.Forall₂ ChunkGroupOk out gs

/-- Every similarity-matrix entry is non-negative (out-of-range reads default
to zero). -/
def MatNonneg {K : Type} [LinearOrderedField K] (m : List (List K)) : Prop :=
  ∀ i j, 0 ≤ (m.getD i []).getD j 0

/-! Claim-support definitions: the reconstruction functions the
overlap/reconstruction claims quantify over, and concrete fixtures used by
counterexamples and witnesses. -/

/-- The spec's reconstruction for the length strategy: concatenate chunks in
index order, removing the configured overlap from the front of each successor
chunk. -/
def reconstructWithOverlap (ov : Nat) : List PyStr → PyStr
  | [] => []
  | c :: rest => c ++ (rest.map (fun t => t.drop ov)).flatten

/-- Reconstruction of raw length-strategy windows: the first window is sliced
from `p`, and each successor drops the overlap with its predecessor's end. -/
def reconFrom (text : PyStr) : Nat → List (Nat × Nat) → PyStr
  | _, [] => []
  | p, (s, e) :: rest => (sliceStr text s e).drop (p - s) ++ reconFrom text e rest

/-- The adjacency relation of raw length-strategy windows: each successor
starts at the predecessor's end minus the configured overlap (when applied) or
at the end itself, and window ends never move backward. -/
def windowStep (cfg : SplitConfig) (a b : Nat × Nat) : Prop :=
  (b.1 = a.2 - cfg.chunk_overlap ∨ b.1 = a.2) ∧ a.2 ≤ b.2

/-- The text of the paragraph-scenario claim. -/
def scenarioText : PyStr := ("A.\n\nB.\n\nC.").data

/-- Text of the sentence-strategy size counterexample. -/
def c4text : PyStr := (". aaaaaaaaaaaa. aaaaaaaaaaa. bbbbbbbbbb.").data

/-- Text of the length-strategy reconstruction counterexample: 61 letters with
chunk size 60, so the trailing one-character window is dropped by
`min_chunk_size`. -/
def c5text : PyStr := List.replicate 61 'a'

/-- A completed parse task at rest, as stored, for the idempotence claims. -/
def exCompletedTask : Task :=
  { id := "task-1", type := TaskType.document_parse, document_id := "doc-1",
    status := TaskStatus.completed,
    payload := TaskPayload.parse
      { file_path := "/data/a.txt", file_name := "a.txt", file_type := "txt" },
    result := some (TaskResult.parse { content := ("old text").data }),
    error := "", created_at := 1, updated_at := 2, started_at := some 1,
    completed_at := some 2 }

/-- A store holding only the completed parse task. -/
def exStoreC1 : TaskStore := [("task-1", exCompletedTask)]

/-- Payload of the fixture full-pipeline task. -/
def exProcPayload : ProcessCompletePayload :=
  { document_id := "doc-2", file_path := "/data/b.txt", file_name := "b.txt",
    file_type := "txt", chunk_size := 1000, overlap := 200,
    split_type := "paragraph", model := "default" }

/-- A fresh pending full-pipeline task. -/
def exPendingProcessTask : Task :=
  { id := "task-2", type := TaskType.process_complete, document_id := "doc-2",
    status := TaskStatus.pending,
    payload := TaskPayload.processComplete exProcPayload,
    created_at := 1, updated_at := 1 }

/-- A store holding only the pending full-pipeline task. -/
def exStoreC2 : TaskStore := [("task-2", exPendingProcessTask)]

/-- Status of the first store write of a handler invocation. -/
def firstWriteStatus (h : HandlerRun) : Option TaskStatus := (h.writes.map Task.status).head?

/-- Status of the last store write of a handler invocation. -/
def lastWriteStatus (h : HandlerRun) : Option TaskStatus := (h.writes.map Task.status).getLast?

/-- Mutual exclusivity of result and error at rest, as the spec states it. -/
def resultErrorExclusive (t : Task) : Prop :=
  (t.result.isSome → t.status = TaskStatus.completed) ∧
  (t.error ≠ "" → t.status = TaskStatus.failed) ∧
  ¬(t.result.isSome ∧ t.error ≠ "")

/-- A sentence-strategy chunk before post-processing: a space-join of a
non-empty sentence group whose sizes sum to at most the chunk size (the text
itself may exceed the chunk size by the joining spaces). -/
def sentChunkOk (cs : Nat) (c : Chunk) : Prop :=
  ∃ ss, ss ≠ [] ∧ c.text = joinSpace ss ∧ (ss.map List.length).sum ≤ cs

/-- A handler run re-marks the found task processing first and ends on a fresh
terminal status. -/
def rerunsFromProcessing (h : HandlerRun) : Prop :=
  firstWriteStatus h = some TaskStatus.processing ∧
  ∃ s, lastWriteStatus h = some s ∧
    (s = TaskStatus.completed ∨ s = TaskStatus.failed)

/-- Text of the claim C9 witness: two sentences, one of them long enough to be
embedded. -/
def c9text : PyStr := ("Hello there my friend. General Kenobi you are bold.").data

/-- Semantic configuration of the claim C9 witness (rational coordinates; the
threshold value is never consulted on the witness paths). -/
def c9cfg : SemanticSplitConfig ℚ := { similarity_threshold := 0 }

/-- The chunk a merge group denotes: the group texts space-joined, with the
index and metadata of the group's first (lower) member. -/
def groupChunk (g : List Chunk) : Chunk :=
  { text := joinSpaceTexts g, index := (g.headD dfltChunk).index,
    metadata := (g.headD dfltChunk).metadata }

/-- Square-root model for the merge fixtures: every norm reads as zero, so
each cosine similarity takes its zero-norm branch and every matrix entry is an
explicit rational. -/
def c7sqrt : ℚ → ℚ := fun _ => 0

/-- A total embedding function: every text embeds as the vector `[1]`. -/
def c7f : EmbedFn ℚ := fun ts => Except.ok (ts.map (fun _ => [(1 : ℚ)]))

/-- Semantic configuration of the merge fixtures: a 25-character chunk size so
the two fixture sentences land in two separate chunks. -/
def c7cfg : SemanticSplitConfig ℚ :=
  { base := { chunk_size := 25, chunk_overlap := 0 }, similarity_threshold := 0 }

/-- Merge fixture text: a leading bare ending (the pre-match prefix the
sentence regex drops) followed by two 23-character sentences. -/
def c7text : PyStr := (". Alpha beta gamma delta. Epsilon zeta eta theta.").data

/-- Two concrete chunks with coherent metadata (chunk_size equal to the text
length under the character measure), input of the C10 merge witness. -/
def c10chunks : List Chunk :=
  [{ text := ("Alpha beta gamma delta.").data, index := 0,
     metadata := { base := [], chunk_index := 0, chunk_size := 23,
                   chunk_type := "text", quality := { num := 7, den := 10 } } },
   { text := ("Epsilon zeta eta theta.").data, index := 1,
     metadata := { base := [], chunk_index := 1, chunk_size := 23,
                   chunk_type := "text", quality := { num := 7, den := 10 } } }]

/-! Helper lemmas about the store update. -/

theorem update_task_status_payload (t : Task) (s : TaskStatus) (r : Option TaskResult)
    (e : String) (now : Nat) : (update_task_status t s r e now).payload = t.payload := by
  cases r <;> simp only [update_task_status] <;> split_ifs <;> rfl

theorem update_task_status_status (t : Task) (s : TaskStatus) (r : Option TaskResult)
    (e : String) (now : Nat) : (update_task_status t s r e now).status = s := by
  cases r <;> simp only [update_task_status] <;> split_ifs <;> rfl

theorem update_task_status_result_some (t : Task) (s : TaskStatus) (r : TaskResult)
    (e : String) (now : Nat) : (update_task_status t s (some r) e now).result = some r := by
  simp only [update_task_status] <;> split_ifs <;> rfl

theorem update_task_status_result_none (t : Task) (s : TaskStatus)
    (e : String) (now : Nat) : (update_task_status t s none e now).result = t.result := by
  simp only [update_task_status] <;> split_ifs <;> rfl

theorem update_task_status_error_pos (t : Task) (s : TaskStatus) (r : Option TaskResult)
    (e : String) (now : Nat) (he : e ≠ "") : (update_task_status t s r e now).error = e := by
  cases r <;> simp only [update_task_status] <;> split_ifs <;> first | rfl | (exact absurd (by assumption) he)

theorem update_task_status_error_empty (t : Task) (s : TaskStatus) (r : Option TaskResult)
    (now : Nat) : (update_task_status t s r "" now).error = t.error := by
  cases r <;> simp only [update_task_status] <;> split_ifs <;> first | rfl | (simp_all)

theorem string_append_ne_empty (s e : String) (h : s ≠ "") : s ++ e ≠ "" := by
  intro hc
  apply h
  obtain ⟨sd⟩ := s
  obtain ⟨ed⟩ := e
  have hdata : sd ++ ed = [] := congrArg String.data hc
  have hsd : sd = [] := (List.append_eq_nil.mp hdata).1
  rw [hsd]

/-! Claim C6 and the concrete counterexamples of claims C1, C2, C4, C5. -/

/-- Claim C6, counterexample: splitting the exact text "A.\n\nB.\n\nC." with
the paragraph strategy does not return 3 chunks - it returns the empty list,
because every 2-character paragraph is filtered out by post-processing. -/
theorem claim6_counterexample :
    split_text scenarioText 1000 200 "paragraph" [] = [] := by decide

/-- Claim C6 as amended: the raw paragraph split of the normalized text
"A.\n\nB.\n\nC." is exactly the chunks "A.", "B.", "C." with indices 0, 1, 2,
each is shorter than the 10-character minimum embeddable length, and the
post-processed result of the public split is therefore empty. -/
theorem claim6_amended :
    (splitByParagraph {} (normalize_text scenarioText) []).map (fun c => (c.text, c.index)) =
      [(("A.").data, 0), (("B.").data, 1), (("C.").data, 2)] ∧
    (∀ c ∈ splitByParagraph {} (normalize_text scenarioText) [],
      c.text.length < ({} : SplitConfig).min_chunk_length_to_embed) ∧
    split_text scenarioText 1000 200 "paragraph" [] = [] := by decide

/-- Claim C4, counterexample: with chunk size 26, overlap 0 and the character
length function, the sentence strategy returns a first (non-final, non-
paragraph) chunk of 28 characters, exceeding the chunk size: the greedy packer
bounds the sum of sentence sizes but not the joining spaces. -/
theorem claim4_counterexample :
    (split_text c4text 26 0 "sentence" []).map (fun c => (c.text.length, c.index)) =
      [(28, 0), (11, 1)] ∧ 26 < 28 := by decide

/-- Claim C5, counterexample: on a 61-character text with chunk size 60 and
overlap 10 the length strategy emits the window [0, 60) but silently drops the
1-character remainder window (shorter than `min_chunk_size = 50`), so no
reconstruction of the surviving chunks can restore the normalized text. -/
theorem claim5_counterexample :
    normalize_text c5text = c5text ∧
    (split_text c5text 60 10 "length" []).map (fun c => c.text) = [List.replicate 60 'a'] ∧
    pyStrip (reconstructWithOverlap 10
        ((split_text c5text 60 10 "length" []).map (fun c => c.text))) ≠
      pyStrip (normalize_text c5text) := by decide

/-- Claim C1, counterexample: re-delivering `parse_document` for a task whose
stored state is already terminal (completed) is not a no-op - the handler
first writes the task back as processing and then overwrites the terminal
state with the outcome of the re-run (failed here), so stored state, result
and error all change after having been terminal. -/
theorem claim1_counterexample :
    exCompletedTask.status = TaskStatus.completed ∧
    storeGet exStoreC1 "task-1" = some exCompletedTask ∧
    (parse_document exStoreC1 "task-1" (Except.error "boom") 7).writes.map (fun t => t.status) =
      [TaskStatus.processing, TaskStatus.failed] ∧
    (storeGet (parse_document exStoreC1 "task-1" (Except.error "boom") 7).store "task-1").map
      (fun t => (t.status, t.error)) =
      some (TaskStatus.failed, "Document parse failed: boom") := by decide

/-- Claim C2, counterexample: a full-pipeline task whose parse stage raises is
stored at rest as failed while carrying both a non-empty result (the partial
stage-status record) and a non-empty error, violating mutual exclusivity. -/
theorem claim2_counterexample :
    (storeGet (process_document_run exStoreC2 "task-2" (Except.error "io fail")
        (Except.ok []) 9).store "task-2").map
      (fun t => (t.status, t.result.isSome, t.error)) =
      some (TaskStatus.failed, true, "Parse failed: io fail") := by decide

theorem finishRun_writes_head (s : TaskStore) (id : String) (t1 t2 : Task) (ok : Bool) :
    (finishRun s id t1 t2 ok).writes.head? = some t1 := rfl

theorem finishRun_writes_getLast (s : TaskStore) (id : String) (t1 t2 : Task) (ok : Bool) :
    (finishRun s id t1 t2 ok).writes.getLast? = some t2 := rfl

theorem finishRun_first_status (s : TaskStore) (id : String) (t1 t2 : Task) (ok : Bool) :
    firstWriteStatus (finishRun s id t1 t2 ok) = some t1.status := rfl

theorem finishRun_last_status (s : TaskStore) (id : String) (t1 t2 : Task) (ok : Bool) :
    lastWriteStatus (finishRun s id t1 t2 ok) = some t2.status := rfl

/-- Claim C3: in a full-pipeline task, a raising parse stage ends the task
failed; a raising chunk stage ends the task failed; a raising embed stage
after successful parse and chunk still ends the task completed with
`chunk_status = "completed"` and `vector_status = "failed"` in its result. -/
theorem claim3_pipeline_stage_failures
    (store : TaskStore) (tid : String) (task : Task) (p : ProcessCompletePayload)
    (chunkRun : ProcessCompletePayload → PyStr → Except String (List Chunk))
    (now : Nat)
    (hget : storeGet store tid = some task)
    (hpay : task.payload = TaskPayload.processComplete p) :
    (∀ e embedCap, ∃ w,
        (process_document store tid (Except.error e) chunkRun embedCap now).writes.getLast? =
          some w ∧ w.status = TaskStatus.failed) ∧
    (∀ pr e embedCap, chunkRun p pr.content = Except.error e → ∃ w,
        (process_document store tid (Except.ok pr) chunkRun embedCap now).writes.getLast? =
          some w ∧ w.status = TaskStatus.failed) ∧
    (∀ pr chunks e, chunkRun p pr.content = Except.ok chunks → ∃ w r,
        (process_document store tid (Except.ok pr) chunkRun (Except.error e) now).writes.getLast? =
          some w ∧ w.status = TaskStatus.completed ∧
        w.result = some (TaskResult.processComplete r) ∧
        r.parse_status = "completed" ∧ r.chunk_status = "completed" ∧
        r.vector_status = "failed") := by
  have hpay1 : (update_task_status task TaskStatus.processing none "" now).payload =
      TaskPayload.processComplete p := by
    rw [update_task_status_payload, hpay]
  refine ⟨?_, ?_, ?_⟩
  · intro e embedCap
    unfold process_document
    simp only [hget, hpay1]
    exact ⟨_, finishRun_writes_getLast .., update_task_status_status ..⟩
  · intro pr e embedCap hc
    unfold process_document
    simp only [hget, hpay1, hc]
    exact ⟨_, finishRun_writes_getLast .., update_task_status_status ..⟩
  · intro pr chunks e hc
    unfold process_document
    simp only [hget, hpay1, hc]
    refine ⟨_, _, finishRun_writes_getLast .., update_task_status_status ..,
      update_task_status_result_some .., rfl, rfl, rfl⟩

/-- Witness for claim C3: the fixture pending full-pipeline task with the real
chunk stage; its embed stage raising still completes with the stage statuses
of the claim. -/
theorem claim3_witness :
    storeGet exStoreC2 "task-2" = some exPendingProcessTask ∧
    (∃ w r,
        (process_document exStoreC2 "task-2"
            (Except.ok { content := ("hello world, a reasonably long paragraph.").data })
            chunkStageReal (Except.error "embedder down") 9).writes.getLast? =
          some w ∧ w.status = TaskStatus.completed ∧
        w.result = some (TaskResult.processComplete r) ∧
        r.parse_status = "completed" ∧ r.chunk_status = "completed" ∧
        r.vector_status = "failed") := by
  refine ⟨by decide, ?_⟩
  exact (claim3_pipeline_stage_failures exStoreC2 "task-2" exPendingProcessTask exProcPayload
    chunkStageReal 9 (by decide) (by decide)).2.2 _ _ "embedder down" rfl

/-- Claim C1 as amended: re-delivery of any of the four handlers on a task id
whose stored task is terminal is not a no-op - the handler unconditionally
writes the task back as processing (so the stored state is observed as
processing after having been terminal) and then re-runs the work, ending on a
newly computed terminal status that overwrites the previous state. -/
theorem claim1_amended
    (store : TaskStore) (tid : String) (task : Task)
    (parseCap : Except String DocumentParseResult)
    (chunkRun : ProcessCompletePayload → PyStr → Except String (List Chunk))
    (embedCap : Except String (List (List ℚ))) (now : Nat)
    (hget : storeGet store tid = some task)
    (hterm : task.status = TaskStatus.completed ∨ task.status = TaskStatus.failed) :
    rerunsFromProcessing (parse_document store tid parseCap now) ∧
    rerunsFromProcessing (chunk_text store tid now) ∧
    rerunsFromProcessing (vectorize_text store tid embedCap now) ∧
    rerunsFromProcessing (process_document store tid parseCap chunkRun embedCap now) := by
  have hfirst : ∀ t2 ok store1,
      rerunsFromProcessing (finishRun store1 tid
        (update_task_status task TaskStatus.processing none "" now) t2 ok) ↔
      (∃ s, some t2.status = some s ∧
        (s = TaskStatus.completed ∨ s = TaskStatus.failed)) := by
    intro t2 ok store1
    unfold rerunsFromProcessing
    rw [finishRun_first_status, finishRun_last_status, update_task_status_status]
    simp
  refine ⟨?_, ?_, ?_, ?_⟩
  · unfold parse_document
    simp only [hget]
    split <;> try split
    all_goals
      rw [hfirst]
      exact ⟨_, rfl, by simp [update_task_status_status]⟩
  · unfold chunk_text
    simp only [hget]
    split
    all_goals
      rw [hfirst]
      exact ⟨_, rfl, by simp [update_task_status_status]⟩
  · unfold vectorize_text
    simp only [hget]
    split <;> try split
    all_goals try split
    all_goals
      rw [hfirst]
      exact ⟨_, rfl, by simp [update_task_status_status]⟩
  · unfold process_document
    simp only [hget]
    split <;> try split
    all_goals try split
    all_goals try split
    all_goals try split
    all_goals
      rw [hfirst]
      exact ⟨_, rfl, by simp [update_task_status_status]⟩

/-- Witness for claim C1: the completed fixture task re-delivered to every
handler. -/
theorem claim1_amended_witness :
    storeGet exStoreC1 "task-1" = some exCompletedTask ∧
    (exCompletedTask.status = TaskStatus.completed ∨
      exCompletedTask.status = TaskStatus.failed) ∧
    rerunsFromProcessing (parse_document exStoreC1 "task-1" (Except.error "boom") 7) := by
  refine ⟨by decide, by decide, ?_⟩
  exact (claim1_amended exStoreC1 "task-1" exCompletedTask (Except.error "boom")
    chunkStageReal (Except.ok []) 7 (by decide) (by decide)).1

theorem exclusive_processing (task : Task) (now : Nat)
    (hres : task.result = none) (herr : task.error = "") :
    resultErrorExclusive (update_task_status task TaskStatus.processing none "" now) := by
  have h1 : (update_task_status task TaskStatus.processing none "" now).result = none := by
    rw [update_task_status_result_none, hres]
  have h2 : (update_task_status task TaskStatus.processing none "" now).error = "" := by
    rw [update_task_status_error_empty, herr]
  refine ⟨fun h => ?_, fun h => ?_, fun h => ?_⟩
  · rw [h1] at h; cases h
  · rw [h2] at h; cases h rfl
  · rw [h1] at h; cases h.1

theorem exclusive_completed (t1 : Task) (r : TaskResult) (now : Nat)
    (herr : t1.error = "") :
    resultErrorExclusive (update_task_status t1 TaskStatus.completed (some r) "" now) := by
  have h1 := update_task_status_result_some t1 TaskStatus.completed r "" now
  have h2 : (update_task_status t1 TaskStatus.completed (some r) "" now).error = "" := by
    rw [update_task_status_error_empty, herr]
  refine ⟨fun _ => ?_, fun h => ?_, fun h => ?_⟩
  · exact update_task_status_status ..
  · rw [h2] at h; cases h rfl
  · rw [h2] at h; cases h.2 rfl

theorem exclusive_failed (t1 : Task) (msg : String) (now : Nat)
    (hres : t1.result = none) (hmsg : msg ≠ "") :
    resultErrorExclusive (update_task_status t1 TaskStatus.failed none msg now) := by
  have h1 : (update_task_status t1 TaskStatus.failed none msg now).result = none := by
    rw [update_task_status_result_none, hres]
  refine ⟨fun h => ?_, fun _ => ?_, fun h => ?_⟩
  · rw [h1] at h; cases h
  · exact update_task_status_status ..
  · rw [h1] at h; cases h.1

/-- Claim C2 as amended: starting from a stored task carrying no result and no
error, every write of a single-stage handler run keeps result and error
mutually exclusive (a result only with completed, an error only with failed,
never both), but the full-pipeline handler violates exclusivity by design:
when its parse stage raises, the final stored write is failed while carrying
both the partial stage-status result and a non-empty error. -/
theorem claim2_amended
    (store : TaskStore) (tid : String) (task : Task) (p : ProcessCompletePayload)
    (parseCap : Except String DocumentParseResult)
    (embedCap : Except String (List (List ℚ))) (now : Nat)
    (hget : storeGet store tid = some task)
    (hres : task.result = none) (herr : task.error = "") :
    (∀ w ∈ (parse_document store tid parseCap now).writes, resultErrorExclusive w) ∧
    (∀ w ∈ (chunk_text store tid now).writes, resultErrorExclusive w) ∧
    (∀ w ∈ (vectorize_text store tid embedCap now).writes, resultErrorExclusive w) ∧
    (∀ e chunkRun, task.payload = TaskPayload.processComplete p → ∃ w,
        (process_document store tid (Except.error e) chunkRun embedCap now).writes.getLast? =
          some w ∧
        w.status = TaskStatus.failed ∧ w.result.isSome ∧ w.error ≠ "") := by
  have ht1res : (update_task_status task TaskStatus.processing none "" now).result = none := by
    rw [update_task_status_result_none, hres]
  have ht1err : (update_task_status task TaskStatus.processing none "" now).error = "" := by
    rw [update_task_status_error_empty, herr]
  refine ⟨?_, ?_, ?_, ?_⟩
  · unfold parse_document
    simp only [hget]
    split <;> try split
    all_goals
      intro w hw
      simp only [finishRun, List.mem_cons, List.mem_singleton, List.not_mem_nil, or_false] at hw
      rcases hw with h | h <;> subst h
    all_goals
      first
      | exact exclusive_processing task now hres herr
      | exact exclusive_completed _ _ now ht1err
      | exact exclusive_failed _ _ now ht1res (by decide)
      | exact exclusive_failed _ _ now ht1res (string_append_ne_empty _ _ (by decide))
  · unfold chunk_text
    simp only [hget]
    split
    all_goals
      intro w hw
      simp only [finishRun, List.mem_cons, List.mem_singleton, List.not_mem_nil, or_false] at hw
      rcases hw with h | h <;> subst h
    all_goals
      first
      | exact exclusive_processing task now hres herr
      | exact exclusive_completed _ _ now ht1err
      | exact exclusive_failed _ _ now ht1res (by decide)
      | exact exclusive_failed _ _ now ht1res (string_append_ne_empty _ _ (by decide))
  · unfold vectorize_text
    simp only [hget]
    split <;> try split
    all_goals try split
    all_goals
      intro w hw
      simp only [finishRun, List.mem_cons, List.mem_singleton, List.not_mem_nil, or_false] at hw
      rcases hw with h | h <;> subst h
    all_goals
      first
      | exact exclusive_processing task now hres herr
      | exact exclusive_completed _ _ now ht1err
      | exact exclusive_failed _ _ now ht1res (by decide)
      | exact exclusive_failed _ _ now ht1res (string_append_ne_empty _ _ (by decide))
  · intro e chunkRun hpay
    have hpay1 : (update_task_status task TaskStatus.processing none "" now).payload =
        TaskPayload.processComplete p := by
      rw [update_task_status_payload, hpay]
    unfold process_document
    simp only [hget, hpay1]
    refine ⟨_, finishRun_writes_getLast .., update_task_status_status .., ?_, ?_⟩
    · rw [update_task_status_result_some]; rfl
    · rw [update_task_status_error_pos]
      · exact string_append_ne_empty _ _ (by decide)
      · exact string_append_ne_empty _ _ (by decide)

/-- Witness for claim C2: the fixture pending full-pipeline task, whose
single-stage exclusivity hypotheses hold and whose parse-failure run stores
result and error together. -/
theorem claim2_amended_witness :
    storeGet exStoreC2 "task-2" = some exPendingProcessTask ∧
    exPendingProcessTask.result = none ∧ exPendingProcessTask.error = "" ∧
    (∃ w,
        (process_document exStoreC2 "task-2" (Except.error "io fail") chunkStageReal
            (Except.ok []) 9).writes.getLast? = some w ∧
        w.status = TaskStatus.failed ∧ w.result.isSome ∧ w.error ≠ "") := by
  refine ⟨by decide, by decide, by decide, ?_⟩
  exact (claim2_amended exStoreC2 "task-2" exPendingProcessTask exProcPayload
    (Except.error "io fail") (Except.ok []) 9 (by decide) (by decide) (by decide)).2.2.2
    "io fail" chunkStageReal (by decide)

/-! Claim C8: the cosine-similarity function, instantiated at the reals with
the genuine square root. -/

theorem zip_self {α : Type} (v : List α) : v.zip v = v.map (fun x => (x, x)) := by
  induction v with
  | nil => rfl
  | cons a as ih => simp [List.zip_cons_cons, ih, List.zip]

theorem npDot_self_nonneg (v : List ℝ) : 0 ≤ npDot v v := by
  unfold npDot
  rw [zip_self, List.map_map]
  refine List.sum_nonneg ?_
  intro x hx
  simp only [List.mem_map, Function.comp] at hx
  obtain ⟨a, _, ha⟩ := hx
  rw [← ha]
  exact mul_self_nonneg a

/-- Claim C8: over the reals, `_compute_similarity(v, v) = 1` for every vector
of non-zero norm; either zero-norm argument forces result 0; and every result
is clamped into `[0, 1]`. -/
theorem claim8_cosine_similarity :
    (∀ v : List ℝ, Real.sqrt (npDot v v) ≠ 0 → compute_similarity Real.sqrt v v = 1) ∧
    (∀ v w : List ℝ, Real.sqrt (npDot v v) = 0 →
      compute_similarity Real.sqrt v w = 0 ∧ compute_similarity Real.sqrt w v = 0) ∧
    (∀ v w : List ℝ,
      0 ≤ compute_similarity Real.sqrt v w ∧ compute_similarity Real.sqrt v w ≤ 1) := by
  refine ⟨?_, ?_, ?_⟩
  · intro v hv
    simp only [compute_similarity]
    rw [if_neg (by push_neg; exact ⟨hv, hv⟩)]
    rw [Real.mul_self_sqrt (npDot_self_nonneg v)]
    have hne : npDot v v ≠ 0 := fun h => hv (by rw [h, Real.sqrt_zero])
    rw [div_self hne]
    simp
  · intro v w hv
    constructor
    · simp only [compute_similarity]
      rw [if_pos (Or.inl hv)]
    · simp only [compute_similarity]
      rw [if_pos (Or.inr hv)]
  · intro v w
    simp only [compute_similarity]
    split
    · norm_num
    · exact ⟨le_max_left 0 _, max_le zero_le_one (min_le_left 1 _)⟩

/-- Witness for claim C8: the vector (1, 2) has non-zero norm and similarity 1
with itself. -/
theorem claim8_witness :
    Real.sqrt (npDot [(1 : ℝ), 2] [(1 : ℝ), 2]) ≠ 0 ∧
    compute_similarity Real.sqrt [(1 : ℝ), 2] [(1 : ℝ), 2] = 1 := by
  have hdot : npDot [(1 : ℝ), 2] [(1 : ℝ), 2] = 5 := by
    simp [npDot, List.zip]
    norm_num
  have h : Real.sqrt (npDot [(1 : ℝ), 2] [(1 : ℝ), 2]) ≠ 0 := by
    rw [hdot]
    exact Real.sqrt_ne_zero'.mpr (by norm_num)
  exact ⟨h, claim8_cosine_similarity.1 _ h⟩

/-! Claim C9: every fallback path of the split dispatch returns the paragraph
strategy's result. -/

/-- Claim C9: `split` with "semantic" on the base splitter, `split` with a
strategy name outside the four known ones, `split` on a semantic splitter with
no embedding function, and `split` on a semantic splitter whose batch
embedding call raises, each return exactly the paragraph strategy's chunk
list (and, the model being total, no strategy value makes `split` raise). -/
theorem claim9_fallback_equivalence {K : Type} [LinearOrderedField K] (sqrtK : K → K)
    (scfg : SemanticSplitConfig K) (f : EmbedFn K) (cache : EmbedCache K)
    (cfg : SplitConfig) (text : PyStr) (base : List (String × String)) (st : String)
    (err : String)
    (hst : pyLower st ∉ (["paragraph", "sentence", "length", "semantic"] : List String))
    (hsent : 2 ≤ (split_sentences (normalize_text text)
        (detect_language (normalize_text text))).length)
    (hraise : get_embeddings_batch f scfg.use_cached_embeddings cache
        ((split_sentences (normalize_text text) (detect_language (normalize_text text))).filter
          (fun s => decide ((pyStrip s).length ≥ scfg.min_sentence_length))) =
        Except.error err) :
    TextSplitterSplit cfg text "semantic" base = TextSplitterSplit cfg text "paragraph" base ∧
    TextSplitterSplit cfg text st base = TextSplitterSplit cfg text "paragraph" base ∧
    SemanticSplitterSplit sqrtK scfg none cache text "semantic" base =
      TextSplitterSplit scfg.base text "paragraph" base ∧
    SemanticSplitterSplit sqrtK scfg (some f) cache text "semantic" base =
      TextSplitterSplit scfg.base text "paragraph" base := by
  have hsem : pyLower "semantic" = "semantic" := by decide
  have hpar : pyLower "paragraph" = "paragraph" := by decide
  have hbase : ∀ c : SplitConfig, TextSplitterSplit c text "paragraph" base =
      (if text = [] then []
       else postProcessChunks c (splitByParagraph c (normalize_text text) base)) := by
    intro c
    unfold TextSplitterSplit
    rw [hpar]
    by_cases htext : text = []
    · rw [if_pos htext, if_pos htext]
    · rw [if_neg htext, if_neg htext]
      simp
  obtain ⟨h1, h2, h3, h4⟩ : pyLower st ≠ "paragraph" ∧ pyLower st ≠ "sentence" ∧
      pyLower st ≠ "length" ∧ pyLower st ≠ "semantic" := by
    simp only [List.mem_cons, List.not_mem_nil, or_false, not_or] at hst
    exact ⟨hst.1, hst.2.1, hst.2.2.1, hst.2.2.2⟩
  have hlen : ¬ ((split_sentences (normalize_text text)
      (detect_language (normalize_text text))).length ≤ 1) := by omega
  refine ⟨?_, ?_, ?_, ?_⟩
  · rw [hbase]
    unfold TextSplitterSplit
    rw [hsem]
    by_cases htext : text = []
    · rw [if_pos htext, if_pos htext]
    · rw [if_neg htext, if_neg htext]
      simp
  · rw [hbase]
    unfold TextSplitterSplit
    by_cases htext : text = []
    · rw [if_pos htext, if_pos htext]
    · rw [if_neg htext, if_neg htext]
      simp [h1, h2, h3, h4]
  · rw [hbase]
    unfold SemanticSplitterSplit splitBySemanticSimilarity
    rw [hsem]
    by_cases htext : text = []
    · simp [htext]
    · simp [htext]
  · rw [hbase]
    unfold SemanticSplitterSplit splitBySemanticSimilarity
    rw [hsem]
    by_cases htext : text = []
    · simp [htext]
    · simp [htext, hlen, hraise]

/-- Witness for claim C9: an unknown strategy name and a raising embedding
function on a concrete two-sentence text. -/
theorem claim9_witness :
    pyLower "foobar" ∉ (["paragraph", "sentence", "length", "semantic"] : List String) ∧
    2 ≤ (split_sentences (normalize_text c9text) (detect_language (normalize_text c9text))).length ∧
    SemanticSplitterSplit (fun q => q) c9cfg (some (fun _ => Except.error "boom")) [] c9text
        "semantic" [] =
      TextSplitterSplit c9cfg.base c9text "paragraph" [] := by
  refine ⟨by decide, by decide, ?_⟩
  exact (claim9_fallback_equivalence (fun q => q) c9cfg (fun _ => Except.error "boom") []
    c9cfg.base c9text [] "foobar" "boom" (by decide) (by decide) (by rfl)).2.2.2

/-! Claim C4: chunk-size bounds of the length and sentence strategies. -/

theorem dropWhile_length_le {α : Type} (p : α → Bool) :
    ∀ l : List α, (l.dropWhile p).length ≤ l.length
  | [] => by simp
  | a :: as => by
    rw [List.dropWhile_cons]
    split
    · exact le_trans (dropWhile_length_le p as) (Nat.le_succ _)
    · exact le_refl _

theorem pyStrip_length_le (s : PyStr) : (pyStrip s).length ≤ s.length := by
  unfold pyStrip
  calc ((s.dropWhile pyIsSpace).reverse.dropWhile pyIsSpace).reverse.length
      = ((s.dropWhile pyIsSpace).reverse.dropWhile pyIsSpace).length := List.length_reverse ..
    _ ≤ (s.dropWhile pyIsSpace).reverse.length := dropWhile_length_le ..
    _ = (s.dropWhile pyIsSpace).length := List.length_reverse ..
    _ ≤ s.length := dropWhile_length_le ..

theorem sliceStr_length_le (text : PyStr) (a b : Nat) :
    (sliceStr text a b).length ≤ b - a := by
  unfold sliceStr
  exact List.length_take_le ..

theorem lengthWindowEnd_le (cfg : SplitConfig) (text : PyStr) (start : Nat) :
    lengthWindowEnd cfg text start ≤ start + cfg.chunk_size := by
  simp only [lengthWindowEnd]
  split
  · split
    · exact le_refl _
    · exact Nat.le_of_not_lt (by assumption)
  · exact min_le_left ..

theorem splitByLengthAux_window_le (cfg : SplitConfig) (text : PyStr) :
    ∀ fuel start, ∀ se ∈ splitByLengthAux cfg text fuel start,
      se.2 ≤ se.1 + cfg.chunk_size := by
  intro fuel
  induction fuel with
  | zero => intro start se h; cases h
  | succ n ih =>
    intro start se h
    unfold splitByLengthAux at h
    split at h
    · cases h
    · rcases List.mem_cons.mp h with h | h
      · subst h; exact lengthWindowEnd_le ..
      · exact ih _ se h

theorem enumChunks_mem (cfg : SplitConfig) (base : List (String × String)) :
    ∀ ps i c, c ∈ enumChunks cfg base i ps → c.text ∈ ps := by
  intro ps
  induction ps with
  | nil => intro i c h; cases h
  | cons p rest ih =>
    intro i c h
    unfold enumChunks at h
    rcases List.mem_cons.mp h with h | h
    · subst h; exact List.mem_cons_self ..
    · exact List.mem_cons_of_mem _ (ih _ c h)

theorem stampFrom_mem : ∀ (l : List Chunk) (i : Nat) (c : Chunk), c ∈ stampFrom i l →
    ∃ c₀ ∈ l, c.text = c₀.text ∧ c.metadata = { c₀.metadata with chunk_index := c.index } := by
  intro l
  induction l with
  | nil => intro i c h; cases h
  | cons p rest ih =>
    intro i c h
    unfold stampFrom at h
    rcases List.mem_cons.mp h with h | h
    · subst h; exact ⟨p, List.mem_cons_self .., rfl, rfl⟩
    · obtain ⟨c₀, hc₀, ht, hm⟩ := ih _ c h
      exact ⟨c₀, List.mem_cons_of_mem _ hc₀, ht, hm⟩

theorem postProcess_text_mem (cfg : SplitConfig) (l : List Chunk) (c : Chunk)
    (hstrip : cfg.strip_whitespace = true) (h : c ∈ postProcessChunks cfg l) :
    ∃ c₀ ∈ l, c.text = pyStrip c₀.text := by
  unfold postProcessChunks at h
  rw [hstrip] at h
  simp only [if_true] at h
  obtain ⟨c₁, hc₁, ht, _⟩ := stampFrom_mem _ _ _ h
  rw [List.mem_map] at hc₁
  obtain ⟨c₂, hc₂, hmap⟩ := hc₁
  refine ⟨c₂, List.mem_of_mem_filter hc₂, ?_⟩
  rw [ht, ← hmap]

theorem splitByLength_chunk_le (cfg : SplitConfig) (text : PyStr)
    (base : List (String × String)) :
    ∀ c ∈ splitByLength cfg text base, c.text.length ≤ cfg.chunk_size := by
  intro c h
  unfold splitByLength at h
  split at h
  · cases h
  · split at h
    · rcases List.mem_singleton.mp h with rfl
      simpa using (by assumption : text.length ≤ cfg.chunk_size)
    · have htext := enumChunks_mem _ _ _ _ _ h
      rw [List.mem_filter] at htext
      obtain ⟨hmem, _⟩ := htext
      rw [List.mem_map] at hmem
      obtain ⟨se, hse, hslice⟩ := hmem
      have hle := splitByLengthAux_window_le cfg text _ _ se hse
      rw [← hslice]
      calc (sliceStr text se.1 se.2).length ≤ se.2 - se.1 := sliceStr_length_le ..
        _ ≤ cfg.chunk_size := by omega

theorem measureSize_char (cfg : SplitConfig) (s : PyStr)
    (hchar : cfg.length_function = LengthFn.character) : measureSize cfg s = s.length := by
  unfold measureSize
  rw [hchar]

theorem shrinkToSpace_le (text : PyStr) (i : Nat) :
    ∀ cnt e, shrinkToSpace text i e cnt ≤ e := by
  intro cnt
  induction cnt with
  | zero => intro e; exact le_refl _
  | succ n ih =>
    intro e
    unfold shrinkToSpace
    split
    · exact le_trans (ih (e - 1)) (Nat.sub_le ..)
    · exact le_refl _

theorem lengthHelperCharAux_mem_le (text : PyStr) (max_size : Nat) :
    ∀ fuel i, ∀ p ∈ lengthHelperCharAux text max_size i fuel, p.length ≤ max_size := by
  intro fuel
  induction fuel with
  | zero => intro i p h; cases h
  | succ n ih =>
    intro i p h
    have hsingle : ∀ x : PyStr, p ∈ (if x ≠ [] then [x] else ([] : List PyStr)) → p = x := by
      intro x hx
      split at hx
      · exact List.mem_singleton.mp hx
      · cases hx
    unfold lengthHelperCharAux at h
    split at h
    · cases h
    · rcases List.mem_append.mp h with h | h
      · rw [hsingle _ h]
        refine le_trans (pyStrip_length_le _) (le_trans (sliceStr_length_le ..) ?_)
        have hEle : (if i + max_size < text.length then
            (let e' := shrinkToSpace text i (i + max_size) (i + max_size - i);
             if e' = i then i + max_size else e')
          else i + max_size) ≤ i + max_size := by
          split
          · dsimp only
            split
            · exact le_refl _
            · exact shrinkToSpace_le ..
          · exact le_refl _
        omega
      · exact ih _ p h

theorem split_by_length_helper_le (cfg : SplitConfig) (text : PyStr) (max_size : Nat)
    (hchar : cfg.length_function = LengthFn.character) :
    ∀ p ∈ split_by_length_helper cfg text max_size, p.length ≤ max_size := by
  intro p h
  unfold split_by_length_helper at h
  split at h
  · cases h
  · rw [hchar] at h
    exact lengthHelperCharAux_mem_le text max_size _ _ p h

theorem joinSpace_singleton (s : PyStr) : joinSpace [s] = s := by
  simp [joinSpace]

theorem sentHelperFold_ok (cfg : SplitConfig) (base : List (String × String)) :
    ∀ (pieces : List PyStr) (a : SentAcc),
      (∀ p ∈ pieces, p.length ≤ cfg.chunk_size) →
      (∀ c ∈ a.chunks, sentChunkOk cfg.chunk_size c) →
      a.cur = [] → a.curSize = 0 →
      (∀ c ∈ (pieces.foldl (fun (a : SentAcc) wc =>
          { chunks := a.chunks ++
              [{ text := wc, index := a.idx,
                 metadata := create_chunk_metadata cfg wc a.idx base }],
            cur := [], curSize := 0, idx := a.idx + 1 }) a).chunks,
        sentChunkOk cfg.chunk_size c) ∧
      (pieces.foldl (fun (a : SentAcc) wc =>
          { chunks := a.chunks ++
              [{ text := wc, index := a.idx,
                 metadata := create_chunk_metadata cfg wc a.idx base }],
            cur := [], curSize := 0, idx := a.idx + 1 }) a).cur = [] ∧
      (pieces.foldl (fun (a : SentAcc) wc =>
          { chunks := a.chunks ++
              [{ text := wc, index := a.idx,
                 metadata := create_chunk_metadata cfg wc a.idx base }],
            cur := [], curSize := 0, idx := a.idx + 1 }) a).curSize = 0 := by
  intro pieces
  induction pieces with
  | nil => intro a hp ha hcur hsize; exact ⟨ha, hcur, hsize⟩
  | cons p rest ih =>
    intro a hp ha hcur hsize
    rw [List.foldl_cons]
    refine ih _ (fun q hq => hp q (List.mem_cons_of_mem _ hq)) ?_ rfl rfl
    intro c hc
    rcases List.mem_append.mp hc with h | h
    · exact ha c h
    · rcases List.mem_singleton.mp h with rfl
      exact ⟨[p], by simp, (joinSpace_singleton p).symm, by
        simpa using hp p (List.mem_cons_self ..)⟩

theorem splitBySentenceGo_ok (cfg : SplitConfig) (base : List (String × String))
    (hov : cfg.chunk_overlap = 0) (hchar : cfg.length_function = LengthFn.character) :
    ∀ (sentences : List PyStr) (acc : SentAcc),
      acc.curSize = (acc.cur.map List.length).sum →
      acc.curSize ≤ cfg.chunk_size →
      (∀ c ∈ acc.chunks, sentChunkOk cfg.chunk_size c) →
      ∀ c ∈ splitBySentenceGo cfg base sentences acc, sentChunkOk cfg.chunk_size c := by
  intro sentences
  induction sentences with
  | nil =>
    intro acc h1 h2 h3 c hc
    unfold splitBySentenceGo at hc
    split at hc
    · rcases List.mem_append.mp hc with h | h
      · exact h3 c h
      · rcases List.mem_singleton.mp h with rfl
        exact ⟨acc.cur, by assumption, rfl, by rw [← h1]; exact h2⟩
    · exact h3 c hc
  | cons s rest ih =>
    intro acc h1 h2 h3 c hc
    have hms := measureSize_char cfg s hchar
    simp only [splitBySentenceGo] at hc
    by_cases hskip : pyStrip s = []
    · rw [if_pos hskip] at hc
      exact ih acc h1 h2 h3 c hc
    · rw [if_neg hskip] at hc
      by_cases hlong : measureSize cfg s > cfg.chunk_size
      · rw [if_pos hlong] at hc
        have hpieces : ∀ p ∈ (split_by_length_helper cfg s cfg.chunk_size).filter
            (fun wc => decide (wc.length ≥ cfg.min_chunk_size)), p.length ≤ cfg.chunk_size := by
          intro p hpmem
          exact split_by_length_helper_le cfg s cfg.chunk_size hchar p
            (List.mem_of_mem_filter hpmem)
        by_cases hcur : acc.cur ≠ []
        · rw [if_pos hcur] at hc
          have hfold := sentHelperFold_ok cfg base
            ((split_by_length_helper cfg s cfg.chunk_size).filter
              (fun wc => decide (wc.length ≥ cfg.min_chunk_size)))
            { chunks := acc.chunks ++
                [{ text := joinSpace acc.cur, index := acc.idx,
                   metadata := create_chunk_metadata cfg (joinSpace acc.cur) acc.idx base }],
              cur := [], curSize := 0, idx := acc.idx + 1 }
            hpieces (by
              intro c' hc'
              rcases List.mem_append.mp hc' with h | h
              · exact h3 c' h
              · rcases List.mem_singleton.mp h with rfl
                exact ⟨acc.cur, hcur, rfl, by rw [← h1]; exact h2⟩) rfl rfl
          exact ih _ (by rw [hfold.2.2, hfold.2.1]; rfl)
            (by rw [hfold.2.2]; exact Nat.zero_le _) hfold.1 c hc
        · rw [if_neg hcur] at hc
          have hcurnil : acc.cur = [] := by
            by_cases hx : acc.cur = []
            · exact hx
            · cases hcur hx
          have hsize0 : acc.curSize = 0 := by
            rw [h1, hcurnil]; rfl
          have hfold := sentHelperFold_ok cfg base
            ((split_by_length_helper cfg s cfg.chunk_size).filter
              (fun wc => decide (wc.length ≥ cfg.min_chunk_size)))
            acc hpieces h3 hcurnil hsize0
          exact ih _ (by rw [hfold.2.2, hfold.2.1]; rfl)
            (by rw [hfold.2.2]; exact Nat.zero_le _) hfold.1 c hc
      · rw [if_neg hlong] at hc
        by_cases happend : acc.curSize + measureSize cfg s ≤ cfg.chunk_size ∨ acc.cur = []
        · rw [if_pos happend] at hc
          refine ih _ ?_ ?_ ?_ c hc
          · simp [h1, List.map_append, hms]
          · show acc.curSize + measureSize cfg s ≤ cfg.chunk_size
            rcases happend with h | h
            · exact h
            · have h0 : acc.curSize = 0 := by rw [h1, h]; rfl
              omega
          · exact h3
        · rw [if_neg happend] at hc
          rw [hov] at hc
          rw [if_neg (by simp)] at hc
          have hcurne : acc.cur ≠ [] := by
            intro hx
            exact happend (Or.inr hx)
          refine ih _ ?_ ?_ ?_ c hc
          · simp [hms]
          · show measureSize cfg s ≤ cfg.chunk_size
            omega
          · intro c' hc'
            rcases List.mem_append.mp hc' with h | h
            · exact h3 c' h
            · rcases List.mem_singleton.mp h with rfl
              exact ⟨acc.cur, hcurne, rfl, by rw [← h1]; exact h2⟩

theorem textSplitter_length_dispatch (cfg : SplitConfig) (text : PyStr)
    (base : List (String × String)) :
    TextSplitterSplit cfg text "length" base =
      if text = [] then []
      else postProcessChunks cfg (splitByLength cfg (normalize_text text) base) := by
  unfold TextSplitterSplit
  rw [show pyLower "length" = "length" from by decide]
  by_cases htext : text = []
  · rw [if_pos htext, if_pos htext]
  · rw [if_neg htext, if_neg htext]
    simp

theorem textSplitter_sentence_dispatch (cfg : SplitConfig) (text : PyStr)
    (base : List (String × String)) :
    TextSplitterSplit cfg text "sentence" base =
      if text = [] then []
      else postProcessChunks cfg (splitBySentence cfg (normalize_text text)
        (detect_language (normalize_text text)) base) := by
  unfold TextSplitterSplit
  rw [show pyLower "sentence" = "sentence" from by decide]
  by_cases htext : text = []
  · rw [if_pos htext, if_pos htext]
  · rw [if_neg htext, if_neg htext]
    simp

/-- Claim C4 as amended: every chunk of the length strategy (final one
included) stays within `chunk_size` characters; for the sentence strategy with
no overlap seeding and the character measure, every returned chunk is the
(stripped) space-join of a sentence group whose lengths sum to at most
`chunk_size` - the chunk's own text may exceed `chunk_size` by the joining
spaces, as the counterexample shows, because the packer does not count them;
paragraph chunks remain unbounded. -/
theorem claim4_amended (cfg : SplitConfig) (text : PyStr) (base : List (String × String))
    (hov : cfg.chunk_overlap = 0) (hchar : cfg.length_function = LengthFn.character)
    (hstrip : cfg.strip_whitespace = true) :
    (∀ c ∈ TextSplitterSplit cfg text "length" base, c.text.length ≤ cfg.chunk_size) ∧
    (∀ c ∈ TextSplitterSplit cfg text "sentence" base,
      ∃ ss, ss ≠ [] ∧ c.text = pyStrip (joinSpace ss) ∧
        (ss.map List.length).sum ≤ cfg.chunk_size) := by
  constructor
  · intro c hc
    rw [textSplitter_length_dispatch] at hc
    split at hc
    · cases hc
    · obtain ⟨c₀, hc₀, ht⟩ := postProcess_text_mem cfg _ c hstrip hc
      rw [ht]
      exact le_trans (pyStrip_length_le _) (splitByLength_chunk_le cfg _ base c₀ hc₀)
  · intro c hc
    rw [textSplitter_sentence_dispatch] at hc
    split at hc
    · cases hc
    · obtain ⟨c₀, hc₀, ht⟩ := postProcess_text_mem cfg _ c hstrip hc
      unfold splitBySentence at hc₀
      dsimp only at hc₀
      split at hc₀
      · cases hc₀
      · obtain ⟨ss, hne, htext, hsum⟩ := splitBySentenceGo_ok cfg base hov hchar _ _
          rfl (Nat.zero_le _) (by intro c' h; cases h) c₀ hc₀
        exact ⟨ss, hne, by rw [ht, htext], hsum⟩

/-! Claim C5: reconstruction of the text from the raw length-strategy
windows. -/

theorem scanFwd_some (p : Nat → Bool) :
    ∀ cnt i j, scanFwd p i cnt = some j → p j = true ∧ i ≤ j ∧ j < i + cnt := by
  intro cnt
  induction cnt with
  | zero => intro i j h; cases h
  | succ n ih =>
    intro i j h
    unfold scanFwd at h
    split at h
    · cases h
      exact ⟨by assumption, le_refl _, by omega⟩
    · obtain ⟨hp, hle, hlt⟩ := ih (i + 1) j h
      exact ⟨hp, by omega, by omega⟩

theorem scanBwd_some (p : Nat → Bool) :
    ∀ cnt i j, cnt ≤ i + 1 → scanBwd p i cnt = some j →
      p j = true ∧ j ≤ i ∧ i < j + cnt := by
  intro cnt
  induction cnt with
  | zero => intro i j _ h; cases h
  | succ n ih =>
    intro i j hcnt h
    unfold scanBwd at h
    split at h
    · cases h
      exact ⟨by assumption, le_refl _, by omega⟩
    · obtain ⟨hp, hle, hlt⟩ := ih (i - 1) j (by omega) h
      exact ⟨hp, by omega, by omega⟩

theorem is_sentence_boundary_lt (text : PyStr) (pos : Nat)
    (h : is_sentence_boundary text pos = true) : pos < text.length := by
  unfold is_sentence_boundary at h
  split at h
  · cases h
  · rename_i hcond
    simp only [Bool.or_eq_true, decide_eq_true_eq, not_or] at hcond
    omega

theorem find_best_split_point_bounds (text : PyStr) (target : Nat)
    (h0 : 0 < target) (hlt : target < text.length) :
    target - 100 < find_best_split_point text target ∧
    find_best_split_point text target ≤ text.length := by
  unfold find_best_split_point
  rw [if_neg (by omega), if_neg (by omega)]
  have hbwd : target - (target - 100) ≤ target + 1 := by omega
  dsimp only
  split
  · rename_i j hj
    obtain ⟨hp, h1, h2⟩ := scanFwd_some _ _ _ _ hj
    simp only [Bool.and_eq_true, decide_eq_true_eq] at hp
    refine ⟨by omega, by omega⟩
  · split
    · rename_i j hj
      obtain ⟨hp, h1, h2⟩ := scanBwd_some _ _ _ _ hbwd hj
      simp only [Bool.and_eq_true, decide_eq_true_eq] at hp
      refine ⟨by omega, by omega⟩
    · split
      · rename_i j hj
        obtain ⟨hp, h1, h2⟩ := scanFwd_some _ _ _ _ hj
        have := is_sentence_boundary_lt text j hp
        refine ⟨by omega, by omega⟩
      · split
        · rename_i j hj
          obtain ⟨hp, h1, h2⟩ := scanBwd_some _ _ _ _ hbwd hj
          have := is_sentence_boundary_lt text j hp
          refine ⟨by omega, by omega⟩
        · split
          · rename_i j hj
            obtain ⟨hp, h1, h2⟩ := scanFwd_some _ _ _ _ hj
            refine ⟨by omega, by omega⟩
          · split
            · rename_i j hj
              obtain ⟨hp, h1, h2⟩ := scanBwd_some _ _ _ _ hbwd hj
              refine ⟨by omega, by omega⟩
            · split
              · rename_i j hj
                obtain ⟨hp, h1, h2⟩ := scanFwd_some _ _ _ _ hj
                refine ⟨by omega, by omega⟩
              · split
                · rename_i j hj
                  obtain ⟨hp, h1, h2⟩ := scanBwd_some _ _ _ _ hbwd hj
                  refine ⟨by omega, by omega⟩
                · exact ⟨by omega, by omega⟩

theorem lengthWindowEnd_bounds (cfg : SplitConfig) (text : PyStr) (start : Nat)
    (h100 : 100 < cfg.chunk_size) (hstart : start < text.length) :
    start < lengthWindowEnd cfg text start ∧
    lengthWindowEnd cfg text start ≤ text.length ∧
    (lengthWindowEnd cfg text start = text.length ∨
      start + cfg.chunk_size < lengthWindowEnd cfg text start + 100) := by
  simp only [lengthWindowEnd]
  split
  · rename_i hmin
    have hcs : start + cfg.chunk_size < text.length := by
      rcases Nat.lt_or_ge (start + cfg.chunk_size) text.length with h | h
      · exact h
      · simp only [min_eq_right h] at hmin; omega
    rw [min_eq_left (by omega)] at hmin ⊢
    obtain ⟨hb1, hb2⟩ := find_best_split_point_bounds text (start + cfg.chunk_size)
      (by omega) hcs
    split
    · exact ⟨by omega, by omega, Or.inr (by omega)⟩
    · rename_i hnot
      exact ⟨by omega, hb2, Or.inr (by omega)⟩
  · rename_i hmin
    have : min (start + cfg.chunk_size) text.length = text.length := by
      rcases Nat.le_total (start + cfg.chunk_size) text.length with h | h
      · rw [min_eq_left h] at hmin ⊢
        omega
      · exact min_eq_right h
    rw [this]
    exact ⟨hstart, le_refl _, Or.inl rfl⟩

theorem sliceStr_drop (text : PyStr) (s e p : Nat) (h : s ≤ p) :
    (sliceStr text s e).drop (p - s) = sliceStr text p e := by
  unfold sliceStr
  rw [List.drop_take, List.drop_drop]
  congr 1
  · omega
  · congr 1
    omega

theorem sliceStr_append (text : PyStr) (p e q : Nat) (hpe : p ≤ e) (heq : e ≤ q) :
    sliceStr text p e ++ sliceStr text e q = sliceStr text p q := by
  unfold sliceStr
  have hdrop : text.drop e = (text.drop p).drop (e - p) := by
    rw [List.drop_drop]
    congr 1
    omega
  rw [hdrop, show q - p = (e - p) + (q - e) from by omega, List.take_add]

theorem reconFrom_cons (text : PyStr) (p s e : Nat) (rest : List (Nat × Nat)) :
    reconFrom text p ((s, e) :: rest) =
      (sliceStr text s e).drop (p - s) ++ reconFrom text e rest := rfl

theorem splitByLengthAux_nil (cfg : SplitConfig) (text : PyStr) (fuel start : Nat)
    (h : start ≥ text.length) : splitByLengthAux cfg text fuel start = [] := by
  cases fuel with
  | zero => rfl
  | succ n =>
    unfold splitByLengthAux
    rw [if_pos h]

theorem splitByLengthAux_recon (cfg : SplitConfig) (text : PyStr)
    (h100 : 100 < cfg.chunk_size) (hovcs : cfg.chunk_overlap + 100 ≤ cfg.chunk_size) :
    ∀ fuel start, start < text.length → text.length - start < fuel →
      ∃ e rest, splitByLengthAux cfg text fuel start = (start, e) :: rest ∧
        start < e ∧ e ≤ text.length ∧
        (e = text.length ∨ start + cfg.chunk_size < e + 100) ∧
        (∀ p, start ≤ p → p ≤ e →
          reconFrom text p ((start, e) :: rest) = sliceStr text p text.length) ∧
        List.Chain' (windowStep cfg) ((start, e) :: rest) := by
  intro fuel
  induction fuel with
  | zero => intro start _ hf; omega
  | succ n ih =>
    intro start hstart hfuel
    obtain ⟨he1, he2, heq⟩ := lengthWindowEnd_bounds cfg text start h100 hstart
    unfold splitByLengthAux
    rw [if_neg (by omega)]
    by_cases hend : lengthWindowEnd cfg text start = text.length
    · have hns : lengthNextStart cfg text start = lengthWindowEnd cfg text start := by
        unfold lengthNextStart
        rw [if_neg (by rw [hend]; simp)]
      refine ⟨lengthWindowEnd cfg text start, [], ?_, he1, he2, Or.inl hend, ?_, ?_⟩
      · rw [hns, splitByLengthAux_nil cfg text n _ (by omega)]
      · intro p hp1 hp2
        simp only [reconFrom, List.append_nil]
        rw [sliceStr_drop text start _ p hp1, hend]
      · exact List.chain'_singleton _
    · have hlt : lengthWindowEnd cfg text start < text.length := by omega
      have hnslt : start < lengthNextStart cfg text start ∧
          lengthNextStart cfg text start ≤ lengthWindowEnd cfg text start ∧
          lengthWindowEnd cfg text start - cfg.chunk_overlap ≤
            lengthNextStart cfg text start ∧
          (lengthNextStart cfg text start =
            lengthWindowEnd cfg text start - cfg.chunk_overlap ∨
           lengthNextStart cfg text start = lengthWindowEnd cfg text start) := by
        unfold lengthNextStart
        dsimp only
        split
        · rename_i hcond
          simp only [Bool.and_eq_true, decide_eq_true_eq] at hcond
          exact ⟨by omega, by omega, by omega, Or.inl rfl⟩
        · exact ⟨he1, le_refl _, by omega, Or.inr rfl⟩
      obtain ⟨hns1, hns2, hns3, hns4⟩ := hnslt
      obtain ⟨e₁, rest₁, haux, hlt₁, hle₁, heq₁, hrecon₁, hchain₁⟩ :=
        ih (lengthNextStart cfg text start) (by omega) (by omega)
      have hee₁ : lengthWindowEnd cfg text start ≤ e₁ := by
        rcases heq₁ with h | h
        · omega
        · omega
      refine ⟨lengthWindowEnd cfg text start, (lengthNextStart cfg text start, e₁) :: rest₁,
        by rw [haux], he1, he2, heq, ?_, ?_⟩
      · intro p hp1 hp2
        have hr := hrecon₁ (lengthWindowEnd cfg text start) hns2 hee₁
        rw [reconFrom_cons, sliceStr_drop text start _ p hp1, hr,
          sliceStr_append text p _ _ hp2 he2]
      · rw [List.chain'_cons]
        refine ⟨⟨?_, hee₁⟩, hchain₁⟩
        rcases hns4 with h | h
        · exact Or.inl h
        · exact Or.inr h

/-- Claim C5 as amended: for chunk sizes large enough for the split-point
search window (chunk_size > 100, overlap + 100 ≤ chunk_size, satisfied by the
defaults), the raw `_split_by_length` windows tile the text exactly - each
successor window starts at its predecessor's end minus the applied overlap
(the configured overlap, or zero at the text's end), window ends never move
backward, and concatenating the window slices with each successor's overlap
prefix removed reconstructs the text with no loss; the text that the public
strategy then loses comes only from dropping windows (`min_chunk_size`, the
post-filters), as the counterexample shows. -/
theorem claim5_amended (cfg : SplitConfig) (text : PyStr)
    (h100 : 100 < cfg.chunk_size) (hovcs : cfg.chunk_overlap + 100 ≤ cfg.chunk_size) :
    reconFrom text 0 (splitByLengthWindows cfg text) = text ∧
    List.Chain' (windowStep cfg) (splitByLengthWindows cfg text) := by
  unfold splitByLengthWindows
  by_cases h0 : text = []
  · rw [if_pos h0, h0]
    exact ⟨rfl, List.chain'_nil⟩
  · rw [if_neg h0]
    by_cases hsmall : text.length ≤ cfg.chunk_size
    · rw [if_pos hsmall]
      constructor
      · show List.drop (0 - 0) (sliceStr text 0 text.length) ++ reconFrom text text.length [] = text
        rw [show reconFrom text text.length [] = [] from rfl, List.append_nil]
        unfold sliceStr
        simp [List.take_length]
      · exact List.chain'_singleton _
    · rw [if_neg hsmall]
      have hlen : 0 < text.length := List.length_pos.mpr h0
      obtain ⟨e, rest, haux, _, he2, _, hrecon, hchain⟩ :=
        splitByLengthAux_recon cfg text h100 hovcs (text.length + 1) 0 hlen (by omega)
      rw [haux]
      refine ⟨?_, hchain⟩
      rw [hrecon 0 (le_refl _) (Nat.zero_le _)]
      unfold sliceStr
      simp [List.take_length]

/-- Witness for claim C5: a 150-character text with chunk size 101 and overlap
1 satisfies the amended reconstruction. -/
theorem claim5_amended_witness :
    100 < ({ chunk_size := 101, chunk_overlap := 1 } : SplitConfig).chunk_size ∧
    ({ chunk_size := 101, chunk_overlap := 1 } : SplitConfig).chunk_overlap + 100 ≤
      ({ chunk_size := 101, chunk_overlap := 1 } : SplitConfig).chunk_size ∧
    (reconFrom (List.replicate 150 'a') 0
        (splitByLengthWindows { chunk_size := 101, chunk_overlap := 1 }
          (List.replicate 150 'a')) = List.replicate 150 'a' ∧
      List.Chain' (windowStep { chunk_size := 101, chunk_overlap := 1 })
        (splitByLengthWindows { chunk_size := 101, chunk_overlap := 1 }
          (List.replicate 150 'a'))) :=
  ⟨by decide, by decide,
    claim5_amended { chunk_size := 101, chunk_overlap := 1 } (List.replicate 150 'a')
      (by decide) (by decide)⟩

/-- Witness for claim C4: the counterexample configuration itself satisfies the
amended bounds. -/
theorem claim4_amended_witness :
    ({ chunk_size := 26, chunk_overlap := 0 } : SplitConfig).chunk_overlap = 0 ∧
    ({ chunk_size := 26, chunk_overlap := 0 } : SplitConfig).length_function =
      LengthFn.character ∧
    ({ chunk_size := 26, chunk_overlap := 0 } : SplitConfig).strip_whitespace = true ∧
    ((∀ c ∈ TextSplitterSplit { chunk_size := 26, chunk_overlap := 0 } c4text "length" [],
        c.text.length ≤ ({ chunk_size := 26, chunk_overlap := 0 } : SplitConfig).chunk_size) ∧
      (∀ c ∈ TextSplitterSplit { chunk_size := 26, chunk_overlap := 0 } c4text "sentence" [],
        ∃ ss, ss ≠ [] ∧ c.text = pyStrip (joinSpace ss) ∧
          (ss.map List.length).sum ≤
            ({ chunk_size := 26, chunk_overlap := 0 } : SplitConfig).chunk_size)) :=
  ⟨rfl, rfl, rfl, claim4_amended { chunk_size := 26, chunk_overlap := 0 } c4text [] rfl rfl rfl⟩


/-! Claims C7 and C10: the semantic merge loop.  The development decomposes
the merge loop's output into groups of original chunks and derives both the
global shape of `get_optimal_splits` and the per-chunk metadata frame
condition from that single invariant. -/

/-- Forall₂ respects list append. -/
theorem forall2_append {α β : Type} {R : α → β → Prop} :
    ∀ {l1 : List α} {l2 : List β}, List.Forall₂ R l1 l2 →
    ∀ {l3 : List α} {l4 : List β}, List.Forall₂ R l3 l4 →
      List.Forall₂ R (l1 ++ l3) (l2 ++ l4) := by
  intro l1 l2 h
  induction h with
  | nil => intro l3 l4 h2; exact h2
  | cons hr _ ih => intro l3 l4 h2; exact List.Forall₂.cons hr (ih h2)

/-- Forall₂ transports positional lookups from left to right. -/
theorem forall2_getElem? {α β : Type} {R : α → β → Prop} :
    ∀ {l1 : List α} {l2 : List β}, List.Forall₂ R l1 l2 →
    ∀ {i : Nat} {a : α}, l1[i]? = some a → ∃ b, l2[i]? = some b ∧ R a b := by
  intro l1 l2 h
  induction h with
  | nil => intro i a ha; simp at ha
  | cons hr _ ih =>
    intro i a ha
    cases i with
    | zero => simp only [List.getElem?_cons_zero, Option.some.injEq] at ha; subst ha
              exact ⟨_, by simp, hr⟩
    | succ n => simp only [List.getElem?_cons_succ] at ha ⊢; exact ih ha

/-- Forall₂ relates positional reads with defaults at in-range indices. -/
theorem forall2_getD {α β : Type} {R : α → β → Prop} (d1 : α) (d2 : β) :
    ∀ {l1 : List α} {l2 : List β}, List.Forall₂ R l1 l2 →
    ∀ {i : Nat}, i < l1.length → R (l1.getD i d1) (l2.getD i d2) := by
  intro l1 l2 h
  induction h with
  | nil => intro i hi; simp at hi
  | cons hr _ ih =>
    intro i hi
    cases i with
    | zero => simpa using hr
    | succ n =>
      simp only [List.getD_cons_succ]
      exact ih (by simpa using hi)

/-- Every member of the right list of a Forall₂ has a related left member. -/
theorem forall2_mem_right {α β : Type} {R : α → β → Prop} :
    ∀ {l1 : List α} {l2 : List β}, List.Forall₂ R l1 l2 →
    ∀ {b : β}, b ∈ l2 → ∃ a ∈ l1, R a b := by
  intro l1 l2 h
  induction h with
  | nil => intro b hb; simp at hb
  | cons hr _ ih =>
    intro b hb
    rcases List.mem_cons.mp hb with hb | hb
    · subst hb; exact ⟨_, List.mem_cons_self _ _, hr⟩
    · obtain ⟨a, ha, har⟩ := ih hb
      exact ⟨a, List.mem_cons_of_mem _ ha, har⟩

/-- Mapping both sides of a Forall₂ through functions it equalises gives equal
lists. -/
theorem forall2_map_eq {α β γ : Type} {R : α → β → Prop} (fa : α → γ) (fb : β → γ)
    (hf : ∀ a b, R a b → fa a = fb b) :
    ∀ {l1 : List α} {l2 : List β}, List.Forall₂ R l1 l2 → l1.map fa = l2.map fb := by
  intro l1 l2 h
  induction h with
  | nil => rfl
  | cons hr _ ih => simp only [List.map_cons, ih, hf _ _ hr]

/-- Dropping the same two positions on both sides preserves Forall₂. -/
theorem forall2_removeTwoGo {α β : Type} {R : α → β → Prop} (i j : Nat) :
    ∀ {l1 : List α} {l2 : List β}, List.Forall₂ R l1 l2 →
    ∀ k, List.Forall₂ R (removeTwoGo i j k l1) (removeTwoGo i j k l2) := by
  intro l1 l2 h
  induction h with
  | nil => intro k; exact List.Forall₂.nil
  | cons hr _ ih =>
    intro k
    simp only [removeTwoGo]
    by_cases hk : (k = i || k = j) = true
    · rw [if_pos hk, if_pos hk, List.nil_append, List.nil_append]
      exact ih (k + 1)
    · rw [if_neg hk, if_neg hk, List.singleton_append, List.singleton_append]
      exact List.Forall₂.cons hr (ih (k + 1))

/-- Once the counter has passed both dropped indices, nothing more is
removed. -/
theorem removeTwoGo_past {α : Type} (i j : Nat) :
    ∀ (l : List α) (k : Nat), i < k → j < k → removeTwoGo i j k l = l := by
  intro l
  induction l with
  | nil => intro k _ _; rfl
  | cons x xs ih =>
    intro k hik hjk
    simp only [removeTwoGo]
    have h1 : ¬((k = i || k = j) = true) := by
      simp only [Bool.or_eq_true, decide_eq_true_eq]
      omega
    rw [if_neg h1, List.singleton_append]
    rw [ih (k + 1) (by omega) (by omega)]

/-- With the first index already passed, the drop loop removes exactly the
element at the second index. -/
theorem removeTwoGo_perm_one {α : Type} (d : α) (i j : Nat) (hij : i < j) :
    ∀ (l : List α) (k : Nat), i < k → k ≤ j → j < k + l.length →
      l.Perm (l.getD (j - k) d :: removeTwoGo i j k l) := by
  intro l
  induction l with
  | nil => intro k _ _ h; simp only [List.length_nil] at h; omega
  | cons x xs ih =>
    intro k hik hkj hjlt
    simp only [removeTwoGo]
    by_cases hkeq : k = j
    · have h1 : (k = i || k = j) = true := by
        simp only [Bool.or_eq_true, decide_eq_true_eq]; omega
      rw [if_pos h1, List.nil_append]
      rw [removeTwoGo_past i j xs (k + 1) (by omega) (by omega)]
      have hz : j - k = 0 := by omega
      rw [hz, List.getD_cons_zero]
    · have h1 : ¬((k = i || k = j) = true) := by
        simp only [Bool.or_eq_true, decide_eq_true_eq]; omega
      rw [if_neg h1, List.singleton_append]
      have hjk1 : j - k = (j - (k + 1)) + 1 := by omega
      rw [hjk1, List.getD_cons_succ]
      have hperm := ih (k + 1) (by omega) (by omega)
        (by simp only [List.length_cons] at hjlt; omega)
      exact (List.Perm.cons x hperm).trans (List.Perm.swap _ _ _)

/-- The drop loop removes exactly the elements at its two indices: the input
is a permutation of those two elements plus the output. -/
theorem removeTwoGo_perm_two {α : Type} (d : α) (i j : Nat) (hij : i < j) :
    ∀ (l : List α) (k : Nat), k ≤ i → j < k + l.length →
      l.Perm (l.getD (i - k) d :: l.getD (j - k) d :: removeTwoGo i j k l) := by
  intro l
  induction l with
  | nil => intro k _ h; simp only [List.length_nil] at h; omega
  | cons x xs ih =>
    intro k hki hjlt
    simp only [removeTwoGo]
    by_cases hkeq : k = i
    · have h1 : (k = i || k = j) = true := by
        simp only [Bool.or_eq_true, decide_eq_true_eq]; omega
      rw [if_pos h1, List.nil_append]
      have hi0 : i - k = 0 := by omega
      have hjk1 : j - k = (j - (k + 1)) + 1 := by omega
      rw [hi0, List.getD_cons_zero, hjk1, List.getD_cons_succ]
      exact List.Perm.cons x
        (removeTwoGo_perm_one d i j hij xs (k + 1) (by omega) (by omega)
          (by simp only [List.length_cons] at hjlt; omega))
    · have h1 : ¬((k = i || k = j) = true) := by
        simp only [Bool.or_eq_true, decide_eq_true_eq]; omega
      rw [if_neg h1, List.singleton_append]
      have hik1 : i - k = (i - (k + 1)) + 1 := by omega
      have hjk1 : j - k = (j - (k + 1)) + 1 := by omega
      rw [hik1, hjk1, List.getD_cons_succ, List.getD_cons_succ]
      have hperm := ih (k + 1) (by omega)
        (by simp only [List.length_cons] at hjlt; omega)
      exact ((List.Perm.cons x hperm).trans (List.Perm.swap _ _ _)).trans
        (List.Perm.cons _ (List.Perm.swap _ _ _))

/-- A list is a permutation of its two selected elements followed by
`removeTwo` of them. -/
theorem removeTwo_perm {α : Type} (d : α) {l : List α} {i j : Nat}
    (hij : i < j) (hj : j < l.length) :
    l.Perm (l.getD i d :: l.getD j d :: removeTwo l i j) := by
  have h := removeTwoGo_perm_two d i j hij l 0 (Nat.zero_le _) (by omega)
  simpa [removeTwo] using h

/-- Positional read with default of a mapped range. -/
theorem getD_range_map {γ : Type} (n : Nat) (f : Nat → γ) (i : Nat) (d : γ) :
    ((List.range n).map f).getD i d = if i < n then f i else d := by
  rw [List.getD_eq_getElem?_getD, List.getElem?_map]
  by_cases h : i < n
  · rw [if_pos h, List.getElem?_range h]
    rfl
  · rw [if_neg h, List.getElem?_eq_none (by simpa using Nat.le_of_not_lt h)]
    rfl

/-- A defaulted read from a list of non-negative values is non-negative. -/
theorem getD_zero_nonneg {K : Type} [LinearOrderedField K] (l : List K) (i : Nat)
    (h : ∀ x ∈ l, 0 ≤ x) : 0 ≤ l.getD i 0 := by
  rw [List.getD_eq_getElem?_getD]
  cases hl : l[i]? with
  | none => simp
  | some x => simpa using h x (List.getElem?_mem hl)

/-- Candidate merge pairs are strictly ordered and bounded by the matrix
size. -/
theorem upperPairs_mem {n : Nat} {p : Nat × Nat} (h : p ∈ upperPairs n) :
    p.1 < p.2 ∧ p.2 < n := by
  unfold upperPairs at h
  obtain ⟨i, hi, hp⟩ := List.mem_flatMap.mp h
  obtain ⟨j, hj, hpe⟩ := List.mem_map.mp hp
  subst hpe
  have hj' := List.mem_range'_1.mp hj
  exact ⟨by omega, by omega⟩

/-- With at least two chunks, the pair (0, 1) is a candidate. -/
theorem mem_upperPairs_01 {n : Nat} (h : 2 ≤ n) : ((0, 1) : Nat × Nat) ∈ upperPairs n := by
  unfold upperPairs
  refine List.mem_flatMap.mpr ⟨0, List.mem_range.mpr (by omega), ?_⟩
  refine List.mem_map.mpr ⟨1, List.mem_range'_1.mpr ⟨by omega, by omega⟩, rfl⟩

/-- The argmax fold returns an in-range ordered pair whenever its running best
is one or some candidate beats the running value. -/
theorem argmaxGo_good {K : Type} [LinearOrderedField K] (m : List (List K)) (n : Nat) :
    ∀ (ps : List (Nat × Nat)) (b : K × Nat × Nat),
      (∀ p ∈ ps, p.1 < p.2 ∧ p.2 < n) →
      ((b.2.1 < b.2.2 ∧ b.2.2 < n) ∨ ∃ p ∈ ps, b.1 < (m.getD p.1 []).getD p.2 0) →
      (argmaxGo m ps b).2.1 < (argmaxGo m ps b).2.2 ∧ (argmaxGo m ps b).2.2 < n := by
  intro ps
  induction ps with
  | nil =>
    intro b _ hb
    rcases hb with hb | hb
    · exact hb
    · obtain ⟨p, hp, _⟩ := hb
      simp at hp
  | cons p ps ih =>
    intro b hps hb
    simp only [argmaxGo]
    by_cases hv : (m.getD p.1 []).getD p.2 0 > b.1
    · rw [if_pos hv]
      exact ih _ (fun q hq => hps q (List.mem_cons_of_mem _ hq))
        (Or.inl (hps p (List.mem_cons_self _ _)))
    · rw [if_neg hv]
      refine ih _ (fun q hq => hps q (List.mem_cons_of_mem _ hq)) ?_
      rcases hb with hb | hb
      · exact Or.inl hb
      · obtain ⟨q, hq, hqv⟩ := hb
        rcases List.mem_cons.mp hq with hq | hq
        · subst hq
          exact absurd hqv (by simpa using hv)
        · exact Or.inr ⟨q, hq, hqv⟩

/-- Over a non-negative similarity matrix with at least two chunks, the
selected merge pair is strictly ordered and in range (the initial best of -1
is beaten by the entry at (0, 1)). -/
theorem argmaxPair_lt {K : Type} [LinearOrderedField K] (m : List (List K)) (n : Nat)
    (hn : 2 ≤ n) (hm : MatNonneg m) :
    (argmaxPair m n).1 < (argmaxPair m n).2 ∧ (argmaxPair m n).2 < n := by
  unfold argmaxPair
  exact argmaxGo_good m n (upperPairs n) (-1, 0, 0)
    (fun p hp => upperPairs_mem hp)
    (Or.inr ⟨(0, 1), mem_upperPairs_01 hn, lt_of_lt_of_le (by norm_num) (hm 0 1)⟩)

/-- Every cosine similarity the model computes is non-negative. -/
theorem compute_similarity_nonneg {K : Type} [LinearOrderedField K] (sqrtK : K → K)
    (v1 v2 : List K) : 0 ≤ compute_similarity sqrtK v1 v2 := by
  unfold compute_similarity
  dsimp only
  split
  · exact le_refl 0
  · exact le_max_left 0 _

/-- The initial similarity matrix is entrywise non-negative. -/
theorem buildSimMatrix_nonneg {K : Type} [LinearOrderedField K] (sqrtK : K → K)
    (embs : List (List K)) : MatNonneg (buildSimMatrix sqrtK embs) := by
  intro i j
  unfold buildSimMatrix
  rw [getD_range_map]
  by_cases hi : i < embs.length
  · rw [if_pos hi, getD_range_map]
    by_cases hj : j < embs.length
    · rw [if_pos hj]
      by_cases hij : i = j
      · rw [if_pos hij]
      · rw [if_neg hij]
        exact compute_similarity_nonneg sqrtK _ _
    · rw [if_neg hj]
  · rw [if_neg hi]
    simp

/-- The incrementally rebuilt matrix stays entrywise non-negative. -/
theorem rebuildMatrix_nonneg {K : Type} [LinearOrderedField K] (old : List (List K))
    (rem : List Nat) (sims : List K) (hold : MatNonneg old) (hsims : ∀ x ∈ sims, 0 ≤ x) :
    MatNonneg (rebuildMatrix old rem sims) := by
  intro a b
  unfold rebuildMatrix
  rw [getD_range_map]
  by_cases ha : a < rem.length + 1
  · rw [if_pos ha, getD_range_map]
    by_cases hb : b < rem.length + 1
    · rw [if_pos hb]
      by_cases ha' : a = rem.length
      · rw [if_pos ha']
        by_cases hb' : b = rem.length
        · rw [if_pos hb']
        · rw [if_neg hb']
          exact getD_zero_nonneg sims b hsims
      · rw [if_neg ha']
        by_cases hb' : b = rem.length
        · rw [if_pos hb']
          exact getD_zero_nonneg sims a hsims
        · rw [if_neg hb']
          by_cases hab : a = b
          · rw [if_pos hab]
          · rw [if_neg hab]
            exact hold _ _
    · rw [if_neg hb]
  · rw [if_neg ha]
    simp

/-- A batch call through an embedding function that never raises and returns
one vector per text succeeds. -/
theorem get_embeddings_batch_ok {K : Type} [LinearOrderedField K] (f : EmbedFn K)
    (goodF : ∀ ts, ∃ vs, f ts = Except.ok vs ∧ vs.length = ts.length)
    (useCache : Bool) (cache : EmbedCache K) (texts : List PyStr) :
    ∃ r c', get_embeddings_batch f useCache cache texts = Except.ok (r, c') := by
  unfold get_embeddings_batch
  cases useCache with
  | false =>
    obtain ⟨vs, hvs, _⟩ := goodF texts
    rw [if_neg (by simp)]
    rw [hvs]
    exact ⟨vs, cache, rfl⟩
  | true =>
    rw [if_pos rfl]
    by_cases hmiss : texts.filter (fun t => cacheLookup cache t = none) = []
    · rw [if_pos hmiss]
      exact ⟨_, _, rfl⟩
    · rw [if_neg hmiss]
      obtain ⟨vs, hvs, hlen⟩ := goodF (texts.filter (fun t => cacheLookup cache t = none))
      rw [hvs]
      dsimp only
      rw [if_pos hlen]
      exact ⟨_, _, rfl⟩

/-- The per-survivor similarity pass succeeds under a well-behaved embedding
function, and every produced similarity is non-negative. -/
theorem simsVsMergedGo_ok {K : Type} [LinearOrderedField K] (sqrtK : K → K) (f : EmbedFn K)
    (useCache : Bool) (mergedEmb : List K)
    (goodF : ∀ ts, ∃ vs, f ts = Except.ok vs ∧ vs.length = ts.length) :
    ∀ (cs : List Chunk) (cache : EmbedCache K),
      ∃ sims c', simsVsMergedGo sqrtK f useCache mergedEmb cs cache = Except.ok (sims, c') ∧
        ∀ x ∈ sims, 0 ≤ x := by
  intro cs
  induction cs with
  | nil => intro cache; exact ⟨[], cache, rfl, by simp⟩
  | cons c cs ih =>
    intro cache
    simp only [simsVsMergedGo]
    obtain ⟨r, c1, hr⟩ := get_embeddings_batch_ok f goodF useCache cache [c.text]
    rw [hr]
    dsimp only
    obtain ⟨sims, c2, hs, hnn⟩ := ih c1
    rw [hs]
    dsimp only
    refine ⟨_, c2, rfl, ?_⟩
    intro x hx
    rcases List.mem_cons.mp hx with hx | hx
    · subst hx
      exact compute_similarity_nonneg sqrtK _ _
    · exact hnn x hx

/-- Unfolding equation of the space join on a cons. -/
theorem joinSpace_cons (s : PyStr) (rest : List PyStr) :
    joinSpace (s :: rest) = s ++ (rest.map (fun t => SP :: t)).flatten := rfl

/-- The flattened separator-prefixed tail of a non-empty join. -/
theorem joinSpace_flatten_cons (b : List PyStr) (hb : b ≠ []) :
    (b.map (fun t => SP :: t)).flatten = SP :: joinSpace b := by
  cases b with
  | nil => exact absurd rfl hb
  | cons y ys => simp only [List.map_cons, List.flatten_cons, joinSpace_cons, List.cons_append]

/-- Space-joining a concatenation of two non-empty lists splits into the two
joins around one separator. -/
theorem joinSpace_append (a b : List PyStr) (ha : a ≠ []) (hb : b ≠ []) :
    joinSpace (a ++ b) = joinSpace a ++ SP :: joinSpace b := by
  cases a with
  | nil => exact absurd rfl ha
  | cons x a' =>
    show joinSpace (x :: (a' ++ b)) = joinSpace (x :: a') ++ SP :: joinSpace b
    simp only [joinSpace_cons, List.map_append, List.flatten_append]
    rw [joinSpace_flatten_cons b hb]
    simp [List.append_assoc]

/-- A chunk is its own singleton group. -/
theorem chunkGroupOk_single (c : Chunk) : ChunkGroupOk c [c] := by
  refine ⟨by simp, ?_, c, rfl, rfl, rfl⟩
  simp [joinSpaceTexts, joinSpace]

/-- The merged chunk of the loop body absorbs the concatenation of the two
groups, keeping the lower group's head. -/
theorem chunkGroupOk_merge {c1 c2 : Chunk} {g1 g2 : List Chunk}
    (h1 : ChunkGroupOk c1 g1) (h2 : ChunkGroupOk c2 g2) :
    ChunkGroupOk { text := c1.text ++ SP :: c2.text, index := c1.index,
                   metadata := c1.metadata } (g1 ++ g2) := by
  obtain ⟨hne1, htext1, h, hh1, hmeta1, hidx1⟩ := h1
  obtain ⟨hne2, htext2, _, _, _, _⟩ := h2
  refine ⟨by simp [hne1], ?_, h, ?_, hmeta1, hidx1⟩
  · show c1.text ++ SP :: c2.text = joinSpaceTexts (g1 ++ g2)
    unfold joinSpaceTexts at htext1 htext2 ⊢
    rw [List.map_append, joinSpace_append _ _ (by simpa using hne1) (by simpa using hne2)]
    rw [htext1, htext2]
  · show (g1 ++ g2).head? = some h
    rw [List.head?_append_of_ne_nil _ hne1]
    exact hh1

/-- A chunk related to a group is exactly that group's denoted chunk. -/
theorem chunkGroupOk_eq {c : Chunk} {g : List Chunk} (h : ChunkGroupOk c g) :
    c = groupChunk g := by
  obtain ⟨hne, htext, hd, hh, hmeta, hidx⟩ := h
  cases g with
  | nil => exact absurd rfl hne
  | cons x g' =>
    simp only [List.head?_cons, Option.some.injEq] at hh
    subst hh
    cases c with
    | mk t i md =>
      simp only [groupChunk, List.headD_cons]
      simp only at htext hmeta hidx
      rw [htext, hmeta, hidx]

/-- The initial chunk list decomposes into singleton groups. -/
theorem relGroups_init (l : List Chunk) : RelGroups l (l.map (fun c => [c])) := by
  induction l with
  | nil => exact List.Forall₂.nil
  | cons c cs ih => exact List.Forall₂.cons (chunkGroupOk_single c) ih

/-- Re-stamping preserves the chunk count. -/
theorem stampFrom_length : ∀ (l : List Chunk) (i : Nat), (stampFrom i l).length = l.length := by
  intro l
  induction l with
  | nil => intro i; rfl
  | cons c cs ih => intro i; simp only [stampFrom, List.length_cons, ih]

/-- Re-stamping from `i` yields the consecutive indices from `i`. -/
theorem stampFrom_map_index : ∀ (l : List Chunk) (i : Nat),
    (stampFrom i l).map (fun c => c.index) = List.range' i l.length := by
  intro l
  induction l with
  | nil => intro i; rfl
  | cons c cs ih =>
    intro i
    simp only [stampFrom, List.map_cons, List.length_cons, List.range'_succ, ih]

/-- Positional characterisation of re-stamping. -/
theorem stampFrom_getElem? : ∀ (l : List Chunk) (i k : Nat),
    (stampFrom i l)[k]? = l[k]?.map (fun c =>
      { c with index := i + k, metadata := { c.metadata with chunk_index := i + k } }) := by
  intro l
  induction l with
  | nil => intro i k; simp [stampFrom]
  | cons c cs ih =>
    intro i k
    cases k with
    | zero => simp [stampFrom]
    | succ n =>
      simp only [stampFrom, List.getElem?_cons_succ, ih (i + 1) n]
      have : i + 1 + n = i + (n + 1) := by omega
      rw [this]

/-- Main invariant of the merge while loop: under a well-behaved embedding
function it never hits a fallback, and its output decomposes into non-empty
groups of the original chunks (each output chunk the space-join of its group
with the metadata and index of the group's first member), reaching exactly the
target count when the input had at least that many chunks. -/
theorem mergeLoop_groups {K : Type} [LinearOrderedField K] (sqrtK : K → K) (f : EmbedFn K)
    (useCache : Bool)
    (goodF : ∀ ts, ∃ vs, f ts = Except.ok vs ∧ vs.length = ts.length)
    (orig : List Chunk) (target : Nat) (htarget : 1 ≤ target) :
    ∀ (fuel : Nat) (chunks : List Chunk) (m : List (List K)) (cache : EmbedCache K)
      (gs : List (List Chunk)), RelGroups chunks gs → gs.flatten.Perm orig →
      MatNonneg m → chunks.length ≤ target + fuel →
      ∃ out gs',
        mergeLoop sqrtK f useCache target fuel chunks m cache = MergeOut.merged out ∧
        RelGroups out gs' ∧ gs'.flatten.Perm orig ∧
        (chunks.length ≤ target → out = chunks ∧ gs' = gs) ∧
        (target ≤ chunks.length → out.length = target) := by
  intro fuel
  induction fuel with
  | zero =>
    intro chunks m cache gs hrel hperm hmat hlen
    exact ⟨chunks, gs, rfl, hrel, hperm, fun _ => ⟨rfl, rfl⟩, fun h => by omega⟩
  | succ fuel ih =>
    intro chunks m cache gs hrel hperm hmat hlen
    by_cases hle : chunks.length ≤ target
    · refine ⟨chunks, gs, ?_, hrel, hperm, fun _ => ⟨rfl, rfl⟩, fun h => by omega⟩
      simp only [mergeLoop]
      rw [if_pos hle]
    · have hn2 : 2 ≤ chunks.length := by omega
      obtain ⟨hij, hjn⟩ := argmaxPair_lt m chunks.length hn2 hmat
      have hglen : chunks.length = gs.length := List.Forall₂.length_eq hrel
      simp only [mergeLoop]
      rw [if_neg hle]
      set mi := (argmaxPair m chunks.length).1 with hmidef
      set mj := (argmaxPair m chunks.length).2 with hmjdef
      have hmi : mi < chunks.length := lt_trans hij hjn
      have hRi : ChunkGroupOk (chunks.getD mi dfltChunk) (gs.getD mi []) :=
        forall2_getD dfltChunk [] hrel hmi
      have hRj : ChunkGroupOk (chunks.getD mj dfltChunk) (gs.getD mj []) :=
        forall2_getD dfltChunk [] hrel hjn
      obtain ⟨vs, hvs, hvslen⟩ :=
        goodF [(chunks.getD mi dfltChunk).text ++ SP :: (chunks.getD mj dfltChunk).text]
      rw [hvs]
      cases vs with
      | nil => simp at hvslen
      | cons v vs' =>
        dsimp only
        obtain ⟨sims, cache', hsims, hnn⟩ :=
          simsVsMergedGo_ok sqrtK f useCache v goodF (removeTwo chunks mi mj) cache
        rw [hsims]
        dsimp only
        have hpchunks : chunks.Perm
            (chunks.getD mi dfltChunk :: chunks.getD mj dfltChunk :: removeTwo chunks mi mj) :=
          removeTwo_perm dfltChunk hij hjn
        have hpgs : gs.Perm (gs.getD mi [] :: gs.getD mj [] :: removeTwo gs mi mj) :=
          removeTwo_perm [] hij (hglen ▸ hjn)
        have hrtlen : (removeTwo chunks mi mj).length + 2 = chunks.length := by
          have h := hpchunks.length_eq
          simp only [List.length_cons] at h
          omega
        have hmerge : ChunkGroupOk
            { text := (chunks.getD mi dfltChunk).text ++ SP :: (chunks.getD mj dfltChunk).text,
              index := (chunks.getD mi dfltChunk).index,
              metadata := (chunks.getD mi dfltChunk).metadata }
            (gs.getD mi [] ++ gs.getD mj []) := chunkGroupOk_merge hRi hRj
        have hrel' : RelGroups
            (removeTwo chunks mi mj ++
              [{ text := (chunks.getD mi dfltChunk).text ++ SP :: (chunks.getD mj dfltChunk).text,
                 index := (chunks.getD mi dfltChunk).index,
                 metadata := (chunks.getD mi dfltChunk).metadata }])
            (removeTwo gs mi mj ++ [gs.getD mi [] ++ gs.getD mj []]) :=
          forall2_append (forall2_removeTwoGo mi mj hrel 0)
            (List.Forall₂.cons hmerge List.Forall₂.nil)
        have hflat : (removeTwo gs mi mj ++ [gs.getD mi [] ++ gs.getD mj []]).flatten.Perm orig := by
          have h1 : (removeTwo gs mi mj ++ [gs.getD mi [] ++ gs.getD mj []]).flatten
              = (removeTwo gs mi mj).flatten ++ (gs.getD mi [] ++ gs.getD mj []) := by
            simp [List.flatten_append]
          have h3 : (gs.getD mi [] :: gs.getD mj [] :: removeTwo gs mi mj).flatten
              = (gs.getD mi [] ++ gs.getD mj []) ++ (removeTwo gs mi mj).flatten := by
            simp [List.flatten_cons, List.append_assoc]
          rw [h1]
          refine List.Perm.trans (List.perm_append_comm) ?_
          rw [← h3]
          exact List.Perm.trans hpgs.flatten.symm hperm
        obtain ⟨out, gs'', heq, hrel'', hperm'', hsmall'', hlen''⟩ :=
          ih (removeTwo chunks mi mj ++
              [{ text := (chunks.getD mi dfltChunk).text ++ SP :: (chunks.getD mj dfltChunk).text,
                 index := (chunks.getD mi dfltChunk).index,
                 metadata := (chunks.getD mi dfltChunk).metadata }])
            (rebuildMatrix m ((List.range chunks.length).filter (fun k => k ≠ mi && k ≠ mj)) sims)
            cache' (removeTwo gs mi mj ++ [gs.getD mi [] ++ gs.getD mj []])
            hrel' hflat (rebuildMatrix_nonneg _ _ _ hmat hnn)
            (by simp only [List.length_append, List.length_cons, List.length_nil]; omega)
        refine ⟨out, gs'', heq, hrel'', hperm'', fun h => absurd h hle, fun _ => ?_⟩
        rcases le_or_lt (removeTwo chunks mi mj ++
            [({ text := (chunks.getD mi dfltChunk).text ++ SP :: (chunks.getD mj dfltChunk).text,
                index := (chunks.getD mi dfltChunk).index,
                metadata := (chunks.getD mi dfltChunk).metadata } : Chunk)]).length target with hc | hc
        · have hout := (hsmall'' hc).1
          rw [hout]
          simp only [List.length_append, List.length_cons, List.length_nil] at hc ⊢
          omega
        · exact hlen'' (Nat.le_of_lt hc)

/-- Flattening singleton groups recovers the list. -/
theorem flatten_map_single {α : Type} : ∀ l : List α, (l.map (fun c => [c])).flatten = l := by
  intro l
  induction l with
  | nil => rfl
  | cons x xs ih => simp only [List.map_cons, List.flatten_cons, ih, List.singleton_append]

/-- Group decomposition of `_merge_similar_chunks` on the merging path: the
result is the dense re-stamp of the group-denoted chunks for some partition of
the input into non-empty groups, with exactly `target` groups. -/
theorem merge_similar_chunks_spec {K : Type} [LinearOrderedField K] (sqrtK : K → K)
    (scfg : SemanticSplitConfig K) (f : EmbedFn K) (cache : EmbedCache K)
    (chunks : List Chunk) (target : Nat) (htarget : 1 ≤ target)
    (hgt : target < chunks.length)
    (goodF : ∀ ts, ∃ vs, f ts = Except.ok vs ∧ vs.length = ts.length) :
    ∃ gs : List (List Chunk),
      gs.length = target ∧ (∀ g ∈ gs, g ≠ []) ∧ gs.flatten.Perm chunks ∧
      merge_similar_chunks sqrtK scfg f cache chunks target =
        stampFrom 0 (gs.map groupChunk) := by
  have hne0 : chunks ≠ [] := by
    intro h
    rw [h] at hgt
    simp only [List.length_nil] at hgt
    omega
  have hne : ¬((chunks = [] || chunks.length ≤ target) = true) := by
    simp only [Bool.or_eq_true, decide_eq_true_eq]
    push_neg
    exact ⟨hne0, by omega⟩
  obtain ⟨embs, cache', hemb⟩ := get_embeddings_batch_ok f goodF scfg.use_cached_embeddings
    cache (chunks.map (fun c => c.text))
  obtain ⟨out, gs', heq, hrel', hperm', _, hlen'⟩ :=
    mergeLoop_groups sqrtK f scfg.use_cached_embeddings goodF chunks target htarget
      chunks.length chunks (buildSimMatrix sqrtK embs) cache' (chunks.map (fun c => [c]))
      (relGroups_init chunks)
      (by rw [flatten_map_single]) (buildSimMatrix_nonneg sqrtK embs) (by omega)
  have hcall : merge_similar_chunks sqrtK scfg f cache chunks target = stampFrom 0 out := by
    unfold merge_similar_chunks
    rw [if_neg hne, hemb]
    dsimp only
    rw [heq]
  have hout : out = gs'.map groupChunk := by
    have hm := forall2_map_eq id groupChunk (fun a b hab => chunkGroupOk_eq hab) hrel'
    simpa using hm
  refine ⟨gs', ?_, ?_, hperm', ?_⟩
  · have h1 := List.Forall₂.length_eq hrel'
    have h2 := hlen' (Nat.le_of_lt hgt)
    omega
  · intro g hg
    obtain ⟨a, _, hR⟩ := forall2_mem_right hrel' hg
    exact hR.1
  · rw [hcall, hout]

/-- Counterexample to claim C7 as frozen: merging concatenates texts with a
single-space separator, so the returned texts are not disjoint unions of the
original chunks' texts - on a two-chunk semantic split merged to one chunk,
the output text is one character (the inserted space) longer than the two
original texts together. -/
theorem claim7_counterexample :
    (SemanticSplitterSplit c7sqrt c7cfg (some c7f) [] c7text "semantic" []).map
        (fun c => c.text) =
      [("Alpha beta gamma delta.").data, ("Epsilon zeta eta theta.").data] ∧
    (get_optimal_splits c7sqrt c7cfg (some c7f) [] c7text 1).map (fun c => c.text) =
      [("Alpha beta gamma delta. Epsilon zeta eta theta.").data] ∧
    ((get_optimal_splits c7sqrt c7cfg (some c7f) [] c7text 1).map
        (fun c => c.text.length)).sum = 47 ∧
    ((SemanticSplitterSplit c7sqrt c7cfg (some c7f) [] c7text "semantic" []).map
        (fun c => c.text.length)).sum = 46 := by
  exact ⟨by decide, by decide, by decide, by decide⟩

/-- Claim C7 as amended: when semantic splitting yields at most `max_chunks`
chunks they are returned unchanged; otherwise, for every embedding function
that never raises and returns one vector per text, `get_optimal_splits`
returns exactly `max_chunks` chunks, densely re-indexed from 0, and the result
is exactly the re-stamp of the group-denoted chunks of a partition of the
semantic chunks into non-empty groups: each output text is the space-join of
its group's texts (not the bare concatenation), with the lower (first) group
member's metadata and index before re-stamping. -/
theorem claim7_amended {K : Type} [LinearOrderedField K] (sqrtK : K → K)
    (scfg : SemanticSplitConfig K) (f : EmbedFn K) (cache : EmbedCache K)
    (text : PyStr) (max_chunks : Nat) (hmax : 1 ≤ max_chunks)
    (goodF : ∀ ts, ∃ vs, f ts = Except.ok vs ∧ vs.length = ts.length) :
    ((SemanticSplitterSplit sqrtK scfg (some f) cache text "semantic" []).length ≤ max_chunks →
      get_optimal_splits sqrtK scfg (some f) cache text max_chunks =
        SemanticSplitterSplit sqrtK scfg (some f) cache text "semantic" []) ∧
    (max_chunks < (SemanticSplitterSplit sqrtK scfg (some f) cache text "semantic" []).length →
      (get_optimal_splits sqrtK scfg (some f) cache text max_chunks).length = max_chunks ∧
      (get_optimal_splits sqrtK scfg (some f) cache text max_chunks).map (fun c => c.index) =
        List.range max_chunks ∧
      ∃ gs : List (List Chunk),
        gs.length = max_chunks ∧ (∀ g ∈ gs, g ≠ []) ∧
        gs.flatten.Perm (SemanticSplitterSplit sqrtK scfg (some f) cache text "semantic" []) ∧
        get_optimal_splits sqrtK scfg (some f) cache text max_chunks =
          stampFrom 0 (gs.map groupChunk)) := by
  constructor
  · intro hle
    simp only [get_optimal_splits]
    rw [if_pos hle]
  · intro hgt
    obtain ⟨gs, hlen, hne, hperm, hcall⟩ := merge_similar_chunks_spec sqrtK scfg f cache
      (SemanticSplitterSplit sqrtK scfg (some f) cache text "semantic" []) max_chunks hmax
      hgt goodF
    have hopt : get_optimal_splits sqrtK scfg (some f) cache text max_chunks =
        merge_similar_chunks sqrtK scfg f cache
          (SemanticSplitterSplit sqrtK scfg (some f) cache text "semantic" []) max_chunks := by
      simp only [get_optimal_splits]
      rw [if_neg (by omega)]
      rfl
    refine ⟨?_, ?_, gs, hlen, hne, hperm, by rw [hopt, hcall]⟩
    · rw [hopt, hcall, stampFrom_length, List.length_map, hlen]
    · rw [hopt, hcall, stampFrom_map_index, List.length_map, hlen, List.range_eq_range']

/-- Witness for claim C7: the concrete two-chunk fixture with `max_chunks = 1`
and the total constant embedding function satisfies the amended statement. -/
theorem claim7_amended_witness :
    (1 ≤ 1 ∧ (∀ ts, ∃ vs, c7f ts = Except.ok vs ∧ vs.length = ts.length)) ∧
    (((SemanticSplitterSplit c7sqrt c7cfg (some c7f) [] c7text "semantic" []).length ≤ 1 →
        get_optimal_splits c7sqrt c7cfg (some c7f) [] c7text 1 =
          SemanticSplitterSplit c7sqrt c7cfg (some c7f) [] c7text "semantic" []) ∧
     (1 < (SemanticSplitterSplit c7sqrt c7cfg (some c7f) [] c7text "semantic" []).length →
        (get_optimal_splits c7sqrt c7cfg (some c7f) [] c7text 1).length = 1 ∧
        (get_optimal_splits c7sqrt c7cfg (some c7f) [] c7text 1).map (fun c => c.index) =
          List.range 1 ∧
        ∃ gs : List (List Chunk),
          gs.length = 1 ∧ (∀ g ∈ gs, g ≠ []) ∧
          gs.flatten.Perm (SemanticSplitterSplit c7sqrt c7cfg (some c7f) [] c7text "semantic" []) ∧
          get_optimal_splits c7sqrt c7cfg (some c7f) [] c7text 1 =
            stampFrom 0 (gs.map groupChunk))) :=
  ⟨⟨le_refl 1, fun ts => ⟨ts.map (fun _ => [(1 : ℚ)]), rfl, List.length_map _ _⟩⟩,
   claim7_amended c7sqrt c7cfg c7f [] c7text 1 (le_refl 1)
     (fun ts => ⟨ts.map (fun _ => [(1 : ℚ)]), rfl, List.length_map _ _⟩)⟩

/-- Claim C10: on the merging path, every chunk returned by
`_merge_similar_chunks` carries the metadata of an input chunk (the lower,
first member of its merge group) unchanged except for the final `chunk_index`
re-stamp; in particular, when the output text differs from that input chunk's
text (a real merge), the stored `chunk_size` still describes the original
lower chunk's text, which is strictly shorter than the merged text. -/
theorem claim10_merge_metadata {K : Type} [LinearOrderedField K] (sqrtK : K → K)
    (scfg : SemanticSplitConfig K) (f : EmbedFn K) (cache : EmbedCache K)
    (chunks : List Chunk) (target : Nat) (htarget : 1 ≤ target)
    (hgt : target < chunks.length)
    (goodF : ∀ ts, ∃ vs, f ts = Except.ok vs ∧ vs.length = ts.length)
    (hcoh : ∀ c ∈ chunks, c.metadata.chunk_size = measureSize scfg.base c.text) :
    ∀ (i : Nat) (c : Chunk),
      (merge_similar_chunks sqrtK scfg f cache chunks target)[i]? = some c →
      ∃ c₀ ∈ chunks,
        c.metadata = { c₀.metadata with chunk_index := i } ∧
        c.index = i ∧
        c₀.text.length ≤ c.text.length ∧
        (c.text ≠ c₀.text → c₀.text.length < c.text.length) ∧
        c.metadata.chunk_size = measureSize scfg.base c₀.text := by
  obtain ⟨gs, hlen, hne, hperm, hcall⟩ :=
    merge_similar_chunks_spec sqrtK scfg f cache chunks target htarget hgt goodF
  intro i c hc
  rw [hcall, stampFrom_getElem?, List.getElem?_map] at hc
  cases hgi : gs[i]? with
  | none => rw [hgi] at hc; simp at hc
  | some g =>
    rw [hgi] at hc
    simp only [Option.map_some', Option.map_map, Option.some.injEq] at hc
    have hgmem : g ∈ gs := List.getElem?_mem hgi
    have hgne : g ≠ [] := hne g hgmem
    cases g with
    | nil => exact absurd rfl hgne
    | cons h t =>
      have hh : h ∈ chunks :=
        hperm.mem_iff.mp (List.mem_flatten.mpr ⟨h :: t, hgmem, List.mem_cons_self _ _⟩)
      have hgc : groupChunk (h :: t) =
          { text := joinSpaceTexts (h :: t), index := h.index, metadata := h.metadata } := by
        simp [groupChunk]
      have htext : joinSpaceTexts (h :: t) =
          h.text ++ (t.map (fun c => SP :: c.text)).flatten := by
        simp only [joinSpaceTexts, List.map_cons, joinSpace_cons, List.map_map]
        rfl
      refine ⟨h, hh, ?_, ?_, ?_, ?_, ?_⟩
      · rw [← hc]
        simp [hgc, Nat.zero_add]
      · rw [← hc]
        simp [Nat.zero_add]
      · rw [← hc]
        simp only [hgc, htext]
        simp [List.length_append]
      · rw [← hc]
        simp only [hgc, htext]
        cases t with
        | nil => intro hne'; simp at hne'
        | cons t0 t' =>
          intro _
          simp only [List.map_cons, List.flatten_cons, List.length_append, List.length_cons]
          omega
      · rw [← hc]
        simp only [hgc]
        simp only [hcoh h hh]

/-- Witness for claim C10: two concrete coherent chunks merged to one. -/
theorem claim10_witness :
    (1 ≤ 1 ∧ 1 < c10chunks.length ∧
     (∀ ts, ∃ vs, c7f ts = Except.ok vs ∧ vs.length = ts.length) ∧
     (∀ c ∈ c10chunks, c.metadata.chunk_size = measureSize c7cfg.base c.text)) ∧
    (∀ (i : Nat) (c : Chunk),
      (merge_similar_chunks c7sqrt c7cfg c7f [] c10chunks 1)[i]? = some c →
      ∃ c₀ ∈ c10chunks,
        c.metadata = { c₀.metadata with chunk_index := i } ∧
        c.index = i ∧
        c₀.text.length ≤ c.text.length ∧
        (c.text ≠ c₀.text → c₀.text.length < c.text.length) ∧
        c.metadata.chunk_size = measureSize c7cfg.base c₀.text) :=
  ⟨⟨le_refl 1, by decide,
    fun ts => ⟨ts.map (fun _ => [(1 : ℚ)]), rfl, List.length_map _ _⟩, by decide⟩,
   claim10_merge_metadata c7sqrt c7cfg c7f [] c10chunks 1 (le_refl 1) (by decide)
     (fun ts => ⟨ts.map (fun _ => [(1 : ℚ)]), rfl, List.length_map _ _⟩) (by decide)⟩

end DocQA
